import Mathlib

/-!
# gcp-role-checker: a shallow embedding and its verified properties

The development embeds the pure logic of the checker (`checker/bindings.go`,
`pkg/checker/roles.go`, `pkg/checker/utils.go`, `checker/set.go`,
`cmd/checker/main.go`) together with an explicit model of the remote services
it queries, and proves properties of the embedded functions.

Modelling conventions

* A Go `map[string]T` is a `GoMap T`: the list of its entries.  `GoMap.index`
  is `m[k]` (with the `ok` flag as `Option`), `GoMap.store` is `m[k] = v`.  A
  Go map never holds a key twice (`GoMap.WF`); the order of the entries stands
  for the order in which a `range` loop happens to visit them, so a statement
  quantified over all `GoMap`s covers every visiting order.
* A Go slice is a `List`; `append` is `++`.
* `log.Fatal`, a run-time panic and a fan-out that never passes its barrier
  all end the run without a result: such functions return `Option`, with
  `none` for "the run does not complete".
* The order in which concurrently started tasks hand over their results is
  chosen by a `Sched`, an arbitrary permutation.
-/

namespace GcpRoleChecker

/-! ## Go maps -/

/-- A Go `map[string]α`, as the list of its entries. -/
abbrev GoMap (α : Type) := List (String × α)

namespace GoMap

variable {α : Type}

/-- The expression `m[k]` with its `ok` flag: `none` when the key is absent. -/
def index : GoMap α → String → Option α
  | [], _ => none
  | (k', v) :: rest, k => if k' = k then some v else index rest k

/-- The assignment `m[k] = v`: overwrite the entry of `k`, or add one. -/
def store : GoMap α → String → α → GoMap α
  | [], k, v => [(k, v)]
  | (k', v') :: rest, k, v => if k' = k then (k, v) :: rest else (k', v') :: store rest k v

/-- The keys of the map, in entry order. -/
def keys (m : GoMap α) : List String := m.map Prod.fst

/-- Well-formedness of a Go map: no key occurs twice. -/
def WF (m : GoMap α) : Prop := (keys m).Nodup

instance (m : GoMap α) : Decidable (WF m) := by unfold WF; infer_instance

end GoMap

/-! ## `checker/bindings.go`: data model -/

/-- Go `type Role struct { Name string; PermissionCount int }`. -/
structure Role where
  Name : String
  PermissionCount : Nat
  deriving DecidableEq, Repr

/-- Go `type Resource struct { Name string; Roles []Role }`. -/
structure Resource where
  Name : String
  Roles : List Role
  deriving DecidableEq, Repr

/-- Go `type Member struct { Resources []Resource }`. -/
structure Member where
  Resources : List Resource
  deriving DecidableEq, Repr

/-- One binding of an IAM policy (`cloudresourcemanager.Binding`, in both the v1
and the v2 API): a role and the members it is granted to. -/
structure Binding where
  Role : String
  Members : List String
  deriving DecidableEq, Repr

/-- The type `cloudresourcemanager.Policy` of the v1 API, reduced to its bindings. -/
structure Policy where
  Bindings : List Binding
  deriving DecidableEq, Repr

/-- The type `cloudresourcemanagerv2.Policy` of the v2 API, reduced to its bindings. -/
structure PolicyV2 where
  Bindings : List Binding
  deriving DecidableEq, Repr

/-- The role catalog: role name to permission names. -/
abbrev RoleCatalog := GoMap (List String)

/-! ## `checker/bindings.go`: operations on members -/

/-- Method `Member.Merge`: `member.Resources = append(member.Resources, fromMember.Resources...)`. -/
def Member.Merge (member fromMember : Member) : Member :=
  { Resources := member.Resources ++ fromMember.Resources }

/-- Method `Member.GetResourceByName`.  The loop `for _, resource := range member.Resources`
copies each element into the loop variable `resource`, and the function returns
`&resource`: a pointer to that copy, not to the element of the slice.  The model
therefore returns the found `Resource` by value; when nothing is found it
returns the fresh `Resource{Name: resourceName}`. -/
def Member.GetResourceByName (member : Member) (resourceName : String) : Bool × Resource :=
  match member.Resources.find? (fun resource => resource.Name = resourceName) with
  | some resource => (true, resource)
  | none => (false, { Name := resourceName, Roles := [] })

/-- Lines 38-42 of `AddResourceRole`: the permission count looked up in the catalog,
`0` when the role is not in it. -/
def permissionCount (role : String) (allRoles : RoleCatalog) : Nat :=
  match allRoles.index role with
  | some permissions => permissions.length
  | none => 0

/-- The value of `*resource` in `AddResourceRole` after line 46,
`resource.Roles = append(resource.Roles, Role{Name: role, PermissionCount: permissionCount})`,
where `resource` is what `GetResourceByName` returned. -/
def Member.AddResourceRole.resource (member : Member) (resourceName role : String)
    (allRoles : RoleCatalog) : Resource :=
  let resource := (member.GetResourceByName resourceName).2
  { resource with
    Roles := resource.Roles ++ [{ Name := role, PermissionCount := permissionCount role allRoles }] }

/-- Method `Member.AddResourceRole`: the member after the call.  The updated `*resource` is
appended to `member.Resources` only when the lookup did not find the name; when it
did, the update was made to the copy that `GetResourceByName` returned and
`member.Resources` is left as it was. -/
def Member.AddResourceRole (member : Member) (resourceName role : String)
    (allRoles : RoleCatalog) : Member :=
  let resourceOk := (member.GetResourceByName resourceName).1
  let resource := Member.AddResourceRole.resource member resourceName role allRoles
  if !resourceOk then { Resources := member.Resources ++ [resource] } else member

/-- Function `mergeRoleMaps`: every member of every source is merged into the accumulator. -/
def mergeRoleMaps (toMembers : GoMap Member) (fromMembers : List (GoMap Member)) : GoMap Member :=
  fromMembers.foldl (fun toMembers fromMember =>
    fromMember.foldl (fun toMembers entry =>
      let toMember := (GoMap.index toMembers entry.1).getD { Resources := [] }
      GoMap.store toMembers entry.1 (toMember.Merge entry.2)) toMembers) toMembers

/-- The loop body shared by `processPolicyResponse` and `processPolicyV2Response`:
the two nested loops over the bindings and their members. -/
def processBindings (resourceName : String) (bindings : List Binding) (allRoles : RoleCatalog)
    (memberMap : GoMap Member) : GoMap Member :=
  bindings.foldl (fun memberMap binding =>
    binding.Members.foldl (fun memberMap memberEmail =>
      let member := (GoMap.index memberMap memberEmail).getD { Resources := [] }
      GoMap.store memberMap memberEmail (member.AddResourceRole resourceName binding.Role allRoles))
      memberMap) memberMap

/-- Function `processPolicyResponse` (v1 policies: organization and projects). -/
def processPolicyResponse (resourceName : String) (policy : Policy) (allRoles : RoleCatalog) :
    GoMap Member :=
  processBindings resourceName policy.Bindings allRoles []

/-- Function `processPolicyV2Response` (v2 policies: folders); the same body as `processPolicyResponse`. -/
def processPolicyV2Response (resourceName : String) (policy : PolicyV2) (allRoles : RoleCatalog) :
    GoMap Member :=
  processBindings resourceName policy.Bindings allRoles []

/-! ## `checker/set.go` -/

/-- Go `type StrSet struct { set map[string]bool }`. -/
structure StrSet where
  set : GoMap Bool
  deriving DecidableEq, Repr

/-- Method `StrSet.Add`: `s.set[i] = true` for every item. -/
def StrSet.Add (s : StrSet) (items : List String) : StrSet :=
  { set := items.foldl (fun set i => GoMap.store set i true) s.set }

/-- Method `StrSet.Contains`: whether the key is present in the underlying map. -/
def StrSet.Contains (s : StrSet) (item : String) : Bool :=
  (GoMap.index s.set item).isSome

/-! ## `pkg/checker/utils.go` -/

/-- Function `mergeMaps`: copy every entry of every input, in order, into a fresh map. -/
def mergeMaps (maps : List RoleCatalog) : RoleCatalog :=
  maps.foldl (fun result m =>
    m.foldl (fun result entry => GoMap.store result entry.1 entry.2) result) []

/-! ## `cmd/checker/main.go` -/

/-- The pieces of a character sequence between the occurrences of `sep`. -/
def splitChars (sep : Char) : List Char → List (List Char)
  | [] => [[]]
  | c :: cs =>
    if c = sep then [] :: splitChars sep cs
    else match splitChars sep cs with
      | [] => [[c]]
      | seg :: segs => (c :: seg) :: segs

/-- Go `strings.Split(s, sep)` for a one-character separator (the program only splits at
`","` and `":"`): all pieces of `s` between the separators; never an empty list. -/
def Split (s : String) (sep : Char) : List String :=
  (splitChars sep s.data).map String.mk

/-- Function `parseLabels`.  `labelMap[0]` and `labelMap[1]` are slice indexings; an index
out of range panics, which is the result `none`. -/
def parseLabels (rawLabels : String) : Option (GoMap String) :=
  (Split rawLabels ',').foldlM (fun labels rawLabelMap =>
    if rawLabelMap.length > 0 then
      let labelMap := Split rawLabelMap ':'
      match labelMap[0]?, labelMap[1]? with
      | some key, some value => some (GoMap.store labels key value)
      | _, _ => none
    else some labels) []

/-! ## The remote services -/

/-- An `iam.Role` as returned by the role listings: its name and permissions. -/
structure IamRole where
  Name : String
  IncludedPermissions : List String
  deriving DecidableEq, Repr

/-- A `cloudresourcemanager.ResourceId`: the parent of a project (`Type` and `Id`). -/
structure ResourceId where
  Type_ : String
  Id : String
  deriving DecidableEq, Repr

/-- A `cloudresourcemanager.Project`, reduced to the fields the program reads.
`Parent` is a pointer in Go and is `nil` for a project without a parent. -/
structure Project where
  ProjectId : String
  Name : String
  Parent : Option ResourceId
  deriving DecidableEq, Repr

/-- The answer of the paged call `Folders.List().Parent(resource)`, unfolded: the child
folders delivered to the page callback, in order, each with the answer that listing
that child receives in turn, and whether the paging ended with an error (after the
delivered folders).  The hierarchy is a finite tree, so the unfolding is finite. -/
inductive Listing where
  | mk (folders : List (String × Listing)) (err : Bool) : Listing

/-- The order in which the tasks of one fan-out send their results to the channel:
some permutation of the order in which they were started. -/
structure Sched where
  order : {α : Type} → List α → List α
  perm : ∀ {α : Type} (l : List α), (order l).Perm l

/-- The schedule in which every fan-out completes in starting order. -/
def Sched.fifo : Sched := ⟨fun l => l, fun l => List.Perm.refl l⟩

/-- The completion orders of the three fan-outs of a run. -/
structure Schedule where
  roles : Sched
  projects : Sched
  folders : Sched

/-- The schedule in which every fan-out of the run completes in starting order. -/
def Schedule.fifo : Schedule := ⟨Sched.fifo, Sched.fifo, Sched.fifo⟩

/-- The state of the remote services during one run.  A listing is given with all its
pages concatenated; `none` is a failed call. -/
structure Backend where
  /-- Whether `google.DefaultClient` and the service constructors succeed. -/
  defaultClient : Bool
  /-- The call `iamService.Roles.List().View("FULL")`. -/
  rolesList : Option (List IamRole)
  /-- The call `iamService.Roles.QueryGrantableRoles`, by full resource name. -/
  queryGrantableRoles : String → Option (List IamRole)
  /-- The call `Projects.List().Filter(filters)`, by filter expression. -/
  projectsList : String → Option (List Project)
  /-- The call `Folders.List().Parent(resource)`, by parent. -/
  foldersList : String → Listing
  /-- The call `Organizations.GetIamPolicy`, by resource. -/
  organizationsGetIamPolicy : String → Option Policy
  /-- The call `Projects.GetIamPolicy`, by project id. -/
  projectsGetIamPolicy : String → Option Policy
  /-- The call `Folders.GetIamPolicy` of the v2 API, by folder name. -/
  foldersGetIamPolicy : String → Option PolicyV2

/-- The capacity of the result channels: `make(chan ..., 16384)`. -/
def chanCap : Nat := 16384

/-- The results that the tasks of one fan-out send to the channel, the tasks given in
the order in which they complete; a task whose remote call fails ends the run. -/
def sendAll {α β : Type} (task : α → Option β) : List α → Option (List β)
  | [] => some []
  | a :: rest =>
    match task a with
    | none => none
    | some b => (sendAll task rest).map (fun sent => b :: sent)

/-! ## `pkg/checker/roles.go` -/

/-- Function `buildProjectFilter`: the always-present lifecycle term, then one term per label in
the order the `range` loop visits them, joined with spaces. -/
def buildProjectFilter (projectLabels : GoMap String) : String :=
  let filters := projectLabels.foldl
    (fun filters entry => filters ++ ["labels." ++ entry.1 ++ "=" ++ entry.2])
    ["lifecycleState:ACTIVE"]
  " ".intercalate filters

/-- The page callback of both role listings: `roles[role.Name] = role.IncludedPermissions`. -/
def collectRoles (listed : List IamRole) : RoleCatalog :=
  listed.foldl (fun roles role => GoMap.store roles role.Name role.IncludedPermissions) []

/-- Function `getBuiltInRoles`; a failed listing is fatal. -/
def getBuiltInRoles (B : Backend) : Option RoleCatalog :=
  B.rolesList.map collectRoles

/-- Function `getRolesForResource`; a failed listing is fatal. -/
def getRolesForResource (B : Backend) (resource : String) : Option RoleCatalog :=
  (B.queryGrantableRoles ("//cloudresourcemanager.googleapis.com/" ++ resource)).map collectRoles

/-- Function `getProjectRoles`: the map one task sends to `roleCh`. -/
def getProjectRoles (B : Backend) (project : Project) : Option RoleCatalog :=
  getRolesForResource B ("projects/" ++ project.ProjectId)

mutual
/-- Function `_getFolderNamesRecursive` on the answer the listing of `resource` receives: the
names delivered, and on success the names found under each delivered folder; the
second component is `err != nil`. -/
def _getFolderNamesRecursive : Listing → List String × Bool
  | .mk folders err =>
    if err then (folders.map Prod.fst, true)
    else (folders.map Prod.fst ++ walkChildren folders, false)
/-- The loop `for _, folderName := range folderNames` of `_getFolderNamesRecursive`,
which ranges over the names delivered by the listing: the child names appended. -/
def walkChildren : List (String × Listing) → List String
  | [] => []
  | (_, answer) :: rest =>
    (if (_getFolderNamesRecursive answer).2 then [] else (_getFolderNamesRecursive answer).1)
      ++ walkChildren rest
end

/-- Function `getFolderNames`: `nil` and an error when the client cannot be built. -/
def getFolderNames (B : Backend) (organizationResource : String) : List String × Bool :=
  if B.defaultClient then _getFolderNamesRecursive (B.foldersList organizationResource)
  else ([], true)

/-- The page callback of `getAllProjectPolicies`, for one project: the project joins
`projects`; a role task is started when its parent is a valid parent.  Reading
`project.Parent.Type` of a project without parent panics. -/
def projectCallback (validParents : StrSet) (acc : List Project × List Project)
    (project : Project) : Option (List Project × List Project) :=
  match project.Parent with
  | none => none
  | some parent =>
    let resource := parent.Type_ ++ "s/" ++ parent.Id
    if validParents.Contains resource then some (acc.1 ++ [project], acc.2 ++ [project])
    else some (acc.1 ++ [project], acc.2)

/-- Function `getAllProjectPolicies`: the merged grantable roles of the projects with a valid
parent, and all listed projects.  More started tasks than the channel holds never
pass `wg.Wait()`. -/
def getAllProjectPolicies (B : Backend) (S : Sched) (validParents : StrSet)
    (projectLabels : GoMap String) : Option (RoleCatalog × List Project) :=
  match B.projectsList (buildProjectFilter projectLabels) with
  | none => none
  | some listed =>
    match listed.foldlM (projectCallback validParents) ([], []) with
    | none => none
    | some (projects, started) =>
      if chanCap < started.length then none
      else match sendAll (getProjectRoles B) (S.order started) with
        | none => none
        | some sent => some (sent.foldl (fun roles role => mergeMaps [roles, role]) [], projects)

/-- Function `getAllRoles`: the role catalog, the listed projects and the folder names.  The
error of `getFolderNames` is not looked at. -/
def getAllRoles (B : Backend) (S : Sched) (organizationResource : String)
    (projectLabels : GoMap String) : Option (RoleCatalog × List Project × List String) :=
  match getBuiltInRoles B with
  | none => none
  | some builtInRoles =>
    match getRolesForResource B organizationResource with
    | none => none
    | some orgRoles =>
      let folderNames := (getFolderNames B organizationResource).1
      let validParents := (StrSet.Add (StrSet.Add ⟨[]⟩ [organizationResource]) folderNames)
      match getAllProjectPolicies B S validParents projectLabels with
      | none => none
      | some (projectRoles, projects) =>
        some (mergeMaps [builtInRoles, orgRoles, projectRoles], projects, folderNames)

/-! ## `checker/bindings.go`: fetching the bindings -/

/-- Function `getOrgBindings`; a failed fetch is fatal. -/
def getOrgBindings (B : Backend) (resource : String) (allRoles : RoleCatalog) :
    Option (GoMap Member) :=
  (B.organizationsGetIamPolicy resource).map
    (fun resp => processPolicyResponse resource resp allRoles)

/-- The task `getProjectBindings` starts for one project: what it sends to the channel. -/
def projectTask (B : Backend) (allRoles : RoleCatalog) (project : Project) :
    Option (GoMap Member) :=
  (B.projectsGetIamPolicy project.ProjectId).map
    (fun resp => processPolicyResponse ("projects/" ++ project.ProjectId) resp allRoles)

/-- Function `getProjectBindings`: one task per project, the results merged in the order they
were sent. -/
def getProjectBindings (B : Backend) (S : Sched) (projects : List Project)
    (allRoles : RoleCatalog) : Option (GoMap Member) :=
  if chanCap < projects.length then none
  else match sendAll (projectTask B allRoles) (S.order projects) with
    | none => none
    | some sent => some (sent.foldl (fun allMembers m => mergeRoleMaps allMembers [m]) [])

/-- The task `getFolderBindings` starts for one folder. -/
def folderTask (B : Backend) (allRoles : RoleCatalog) (folderName : String) :
    Option (GoMap Member) :=
  (B.foldersGetIamPolicy folderName).map
    (fun resp => processPolicyV2Response folderName resp allRoles)

/-- Function `getFolderBindings`: one task per folder, the results merged in the order they
were sent. -/
def getFolderBindings (B : Backend) (S : Sched) (folderNames : List String)
    (allRoles : RoleCatalog) : Option (GoMap Member) :=
  if !B.defaultClient then none
  else if chanCap < folderNames.length then none
  else match sendAll (folderTask B allRoles) (S.order folderNames) with
    | none => none
    | some sent => some (sent.foldl (fun allMembers m => mergeRoleMaps allMembers [m]) [])

/-- Function `getAllBindings`: organization, then projects, then folders, merged into a fresh map. -/
def getAllBindings (B : Backend) (S : Schedule) (organizationResource : String)
    (projects : List Project) (folderNames : List String) (allRoles : RoleCatalog) :
    Option (GoMap Member) :=
  match getOrgBindings B organizationResource allRoles with
  | none => none
  | some orgBindings =>
    match getProjectBindings B S.projects projects allRoles with
    | none => none
    | some projectBindings =>
      match getFolderBindings B S.folders folderNames allRoles with
      | none => none
      | some folderBindings =>
        some (mergeRoleMaps [] [orgBindings, projectBindings, folderBindings])

/-! ## `pkg/checker/checker.go` -/

/-- Function `RunChecker`: the values serialised to `roles.json` and `members.json`. -/
def RunChecker (B : Backend) (S : Schedule) (organizationResource : String)
    (projectLabels : GoMap String) : Option (RoleCatalog × GoMap Member) :=
  if !B.defaultClient then none
  else match getAllRoles B S.roles organizationResource projectLabels with
    | none => none
    | some (roles, projects, folderNames) =>
      (getAllBindings B S organizationResource projects folderNames roles).map
        (fun allMembers => (roles, allMembers))

/-! ## Specification-side definitions -/

/-- The member a policy produces for a member identity on first sight: one resource,
holding the one role of the binding in which the identity was first seen. -/
def firstGrant (resourceName role : String) (allRoles : RoleCatalog) : Member :=
  { Resources := [{ Name := resourceName,
                    Roles := [{ Name := role, PermissionCount := permissionCount role allRoles }] }] }

/-- The role of the first binding that lists the member, if any. -/
def firstRole (bindings : List Binding) (memberEmail : String) : Option String :=
  (bindings.find? (fun binding => memberEmail ∈ binding.Members)).map Binding.Role

/-- Every member of the map is a `firstGrant` on the resource. -/
def AllFirstGrants (resourceName : String) (allRoles : RoleCatalog) (m : GoMap Member) : Prop :=
  ∀ k mem, GoMap.index m k = some mem → ∃ role, mem = firstGrant resourceName role allRoles


/-! ## Concrete service states used in the examples -/

/-- A service state in which one role name is known to the built-in catalog, to the
organization and to the project `P1` (child of `organizations/111`), with different
permission lists. -/
def overrideBackend : Backend where
  defaultClient := true
  rolesList := some [⟨"roles/x", ["built-in"]⟩, ⟨"roles/y", ["built-in"]⟩, ⟨"roles/z", ["built-in"]⟩]
  queryGrantableRoles := fun fullResourceName =>
    if fullResourceName = "//cloudresourcemanager.googleapis.com/organizations/111" then
      some [⟨"roles/y", ["org"]⟩, ⟨"roles/z", ["org"]⟩]
    else if fullResourceName = "//cloudresourcemanager.googleapis.com/projects/P1" then
      some [⟨"roles/z", ["project"]⟩]
    else some []
  projectsList := fun _ => some [⟨"P1", "one", some ⟨"organization", "111"⟩⟩]
  foldersList := fun _ => Listing.mk [] false
  organizationsGetIamPolicy := fun _ => some ⟨[]⟩
  projectsGetIamPolicy := fun _ => some ⟨[]⟩
  foldersGetIamPolicy := fun _ => some ⟨[]⟩

/-- The scenario of the specification: organization `organizations/111` without folders,
project `P1` whose parent is the organization and project `P2` whose parent is a folder
outside the valid set; the policy of `P1` grants `roles/viewer` to `user:a@x.com`, the
policy of `P2` is the argument. -/
def scenarioBackend (policyP2 : Policy) : Backend where
  defaultClient := true
  rolesList := some [⟨"roles/viewer", ["resourcemanager.projects.get", "resourcemanager.projects.list"]⟩]
  queryGrantableRoles := fun _ => some []
  projectsList := fun _ =>
    some [⟨"P1", "one", some ⟨"organization", "111"⟩⟩, ⟨"P2", "two", some ⟨"folder", "999"⟩⟩]
  foldersList := fun _ => Listing.mk [] false
  organizationsGetIamPolicy := fun _ => some ⟨[]⟩
  projectsGetIamPolicy := fun projectId =>
    if projectId = "P1" then some ⟨[⟨"roles/viewer", ["user:a@x.com"]⟩]⟩
    else if projectId = "P2" then some policyP2
    else none
  foldersGetIamPolicy := fun _ => none

/-! ## Folder trees -/

/-- The child folders a listing delivers, with their own listings. -/
def Listing.folders : Listing → List (String × Listing)
  | .mk folders _ => folders

/-- Whether the listing itself ends with an error. -/
def Listing.err : Listing → Bool
  | .mk _ err => err

mutual
/-- Every listing of the tree succeeds. -/
def Listing.allOk : Listing → Bool
  | .mk folders err => !err && allOkList folders
/-- Every listing below each of the given folders succeeds. -/
def allOkList : List (String × Listing) → Bool
  | [] => true
  | (_, answer) :: rest => answer.allOk && allOkList rest
end

mutual
/-- The names of all folders nested directly or transitively under the root of the
tree, one entry per folder, in depth-first order: each folder is followed by the
folders nested under it. -/
def Listing.nested : Listing → List String
  | .mk folders _ => nestedList folders
/-- The given folders and all folders nested under them. -/
def nestedList : List (String × Listing) → List String
  | [] => []
  | (name, answer) :: rest => name :: (answer.nested ++ nestedList rest)
end

mutual
/-- A perfectly balanced tree of branching factor `B` and depth `D`: at depth 0 the
root has no child folder, at depth `D + 1` it has exactly `B` child folders, each the
root of a perfectly balanced tree of depth `D`. -/
def Listing.balanced (B : Nat) : Nat → Listing → Bool
  | D, .mk folders _ =>
    match D with
    | 0 => folders.isEmpty
    | D + 1 => folders.length == B && balancedList B D folders
/-- Each of the given folders is the root of a perfectly balanced tree of depth `D`. -/
def balancedList (B : Nat) : Nat → List (String × Listing) → Bool
  | _, [] => true
  | D, (_, answer) :: rest => answer.balanced B D && balancedList B D rest
end

/-- The sum `B^1 + B^2 + ... + B^D`. -/
def geometric (B D : Nat) : Nat := ∑ i ∈ Finset.range D, B ^ (i + 1)

mutual
/-- The tree in which every failed listing is replaced by a successful listing without
child folders. -/
def Listing.withoutFailed : Listing → Listing
  | .mk folders err => if err then .mk [] false else .mk (withoutFailedList folders) false
/-- The given folders, every failed listing below them replaced by an empty one. -/
def withoutFailedList : List (String × Listing) → List (String × Listing)
  | [] => []
  | (name, answer) :: rest => (name, answer.withoutFailed) :: withoutFailedList rest
end

/-- A balanced tree of branching factor 2 and depth 2. -/
def balancedTree22 : Listing :=
  .mk [("folders/1", .mk [("folders/11", .mk [] false), ("folders/12", .mk [] false)] false),
       ("folders/2", .mk [("folders/21", .mk [] false), ("folders/22", .mk [] false)] false)] false

/-- A service state in which the listing of the organization's child folders delivers
one page, holding `folders/1`, and then fails. -/
def failedRootBackend : Backend where
  defaultClient := true
  rolesList := some []
  queryGrantableRoles := fun _ => some []
  projectsList := fun _ => some []
  foldersList := fun parent =>
    if parent = "organizations/111" then
      Listing.mk [("folders/1", Listing.mk [("folders/11", Listing.mk [] false)] false)] true
    else Listing.mk [] false
  organizationsGetIamPolicy := fun _ => some ⟨[]⟩
  projectsGetIamPolicy := fun _ => some ⟨[]⟩
  foldersGetIamPolicy := fun _ => some ⟨[]⟩

/-! ## Label parsing, as the flag documentation describes it -/

/-- The text of a segment before its first `':'`. -/
def labelKey (segment : String) : String :=
  String.mk (segment.data.takeWhile (fun c => c != ':'))

/-- The text of a segment between its first and its second `':'`, or everything after
the first `':'` when there is no second one. -/
def labelValue (segment : String) : String :=
  String.mk (((segment.data.dropWhile (fun c => c != ':')).drop 1).takeWhile (fun c => c != ':'))

/-- The label map described segment by segment: every non-empty segment sends its key
to its value, a later segment overriding an earlier one. -/
def labelsOfSegments (segments : List String) : GoMap String :=
  (segments.filter (fun segment => segment ≠ "")).foldl
    (fun labels segment => GoMap.store labels (labelKey segment) (labelValue segment)) []

/-- Whether the parent resource path of the project is in the set of valid parents. -/
def hasValidParent (validParents : StrSet) (project : Project) : Bool :=
  match project.Parent with
  | some parent => validParents.Contains (parent.Type_ ++ "s/" ++ parent.Id)
  | none => false
/-! ## Lemmas on Go maps -/

namespace GoMap

variable {α : Type}

theorem index_store (m : GoMap α) (k k' : String) (v : α) :
    index (store m k v) k' = if k = k' then some v else index m k' := by
  induction m with
  | nil => simp [store, index]
  | cons e rest ih =>
    obtain ⟨k0, v0⟩ := e
    by_cases h0 : k0 = k
    · subst h0
      by_cases h1 : k0 = k'
      · simp [store, index, h1]
      · simp [store, index, h1]
    · by_cases h1 : k = k'
      · subst h1
        simp [store, index, h0, ih]
      · simp only [store, index, h0, if_false, ih, h1]

theorem index_store_self (m : GoMap α) (k : String) (v : α) :
    index (store m k v) k = some v := by
  simp [index_store]

theorem index_store_of_ne (m : GoMap α) {k k' : String} (v : α) (h : k ≠ k') :
    index (store m k v) k' = index m k' := by
  simp [index_store, h]

theorem index_eq_none_iff (m : GoMap α) (k : String) : index m k = none ↔ k ∉ keys m := by
  induction m with
  | nil => simp [index, keys]
  | cons e rest ih =>
    obtain ⟨k0, v0⟩ := e
    by_cases h0 : k0 = k
    · simp [index, keys, h0]
    · have ih' : index rest k = none ↔ k ∉ List.map Prod.fst rest := ih
      simp [index, keys, h0, ih', Ne.symm h0]

theorem index_isSome_iff (m : GoMap α) (k : String) : (index m k).isSome ↔ k ∈ keys m := by
  have h := index_eq_none_iff m k
  cases hi : index m k with
  | none => simpa [hi] using h
  | some v =>
    rw [hi] at h
    simp only [reduceCtorEq, false_iff, not_not] at h
    simp [h]

theorem keys_store (m : GoMap α) (k : String) (v : α) :
    keys (store m k v) = if k ∈ keys m then keys m else keys m ++ [k] := by
  induction m with
  | nil => simp [store, keys]
  | cons e rest ih =>
    obtain ⟨k0, v0⟩ := e
    have ih' : List.map Prod.fst (store rest k v)
        = if k ∈ List.map Prod.fst rest then List.map Prod.fst rest
          else List.map Prod.fst rest ++ [k] := ih
    by_cases h0 : k0 = k
    · subst h0
      simp [store, keys]
    · by_cases h1 : k ∈ List.map Prod.fst rest
      · simp [store, keys, h0, ih', h1]
      · simp [store, keys, h0, ih', h1, Ne.symm h0]

theorem mem_keys_store (m : GoMap α) (k k' : String) (v : α) :
    k' ∈ keys (store m k v) ↔ k' = k ∨ k' ∈ keys m := by
  rw [keys_store]
  by_cases h : k ∈ keys m
  · simp only [h, if_true]
    constructor
    · intro h'
      exact Or.inr h'
    · rintro (rfl | h')
      · exact h
      · exact h'
  · simp only [h, if_false, List.mem_append, List.mem_singleton]
    tauto

theorem WF_nil : WF ([] : GoMap α) := by simp [WF, keys]

theorem WF_store (m : GoMap α) (k : String) (v : α) (h : WF m) : WF (store m k v) := by
  unfold WF at *
  rw [keys_store]
  by_cases hk : k ∈ keys m
  · simpa [hk] using h
  · simp only [hk, if_false]
    rw [List.nodup_append]
    refine ⟨h, List.nodup_singleton k, ?_⟩
    intro a ha hb
    simp only [List.mem_singleton] at hb
    subst hb
    exact hk ha

theorem index_of_mem (m : GoMap α) (h : WF m) (k : String) (v : α) (hm : (k, v) ∈ m) :
    index m k = some v := by
  induction m with
  | nil => simp at hm
  | cons e rest ih =>
    obtain ⟨k0, v0⟩ := e
    have hnd : k0 ∉ List.map Prod.fst rest ∧ (List.map Prod.fst rest).Nodup := by
      simpa [WF, keys] using h
    rcases List.mem_cons.mp hm with heq | hrest
    · cases heq
      simp [index]
    · have hne : k0 ≠ k := by
        rintro rfl
        exact hnd.1 (List.mem_map_of_mem Prod.fst hrest)
      simp only [index, hne, if_false]
      exact ih hnd.2 hrest

theorem mem_of_index (m : GoMap α) (k : String) (v : α) (h : index m k = some v) :
    (k, v) ∈ m := by
  induction m with
  | nil => simp [index] at h
  | cons e rest ih =>
    obtain ⟨k0, v0⟩ := e
    by_cases h0 : k0 = k
    · simp only [index, h0, if_true, Option.some.injEq] at h
      simp [h0, h]
    · simp only [index, h0, if_false] at h
      exact List.mem_cons_of_mem _ (ih h)

end GoMap

/-! ## Processing one policy -/

theorem AddResourceRole_empty (resourceName role : String) (allRoles : RoleCatalog) :
    Member.AddResourceRole { Resources := [] } resourceName role allRoles
      = firstGrant resourceName role allRoles := by
  simp [Member.AddResourceRole, Member.AddResourceRole.resource, Member.GetResourceByName,
    firstGrant]

theorem AddResourceRole_firstGrant (resourceName role0 role : String) (allRoles : RoleCatalog) :
    Member.AddResourceRole (firstGrant resourceName role0 allRoles) resourceName role allRoles
      = firstGrant resourceName role0 allRoles := by
  simp [Member.AddResourceRole, Member.GetResourceByName, firstGrant]

theorem members_loop (resourceName role : String) (allRoles : RoleCatalog)
    (members : List String) (m : GoMap Member) (hm : AllFirstGrants resourceName allRoles m) :
    AllFirstGrants resourceName allRoles
        (members.foldl (fun memberMap memberEmail =>
          GoMap.store memberMap memberEmail
            (((GoMap.index memberMap memberEmail).getD { Resources := [] }).AddResourceRole
              resourceName role allRoles)) m)
      ∧ ∀ k, GoMap.index
          (members.foldl (fun memberMap memberEmail =>
            GoMap.store memberMap memberEmail
              (((GoMap.index memberMap memberEmail).getD { Resources := [] }).AddResourceRole
                resourceName role allRoles)) m) k
        = match GoMap.index m k with
          | some mem => some mem
          | none => if k ∈ members then some (firstGrant resourceName role allRoles) else none := by
  induction members generalizing m with
  | nil =>
    refine ⟨hm, fun k => ?_⟩
    cases hi : GoMap.index m k <;> simp [hi]
  | cons e rest ih =>
    have hstep : AllFirstGrants resourceName allRoles
        (GoMap.store m e (((GoMap.index m e).getD { Resources := [] }).AddResourceRole
          resourceName role allRoles)) := by
      intro k mem hk
      rw [GoMap.index_store] at hk
      by_cases hek : e = k
      · simp only [hek, if_true, Option.some.injEq] at hk
        cases hi : GoMap.index m k with
        | none =>
          rw [hi] at hk
          exact ⟨role, by rw [← hk]; simp [AddResourceRole_empty]⟩
        | some mem0 =>
          obtain ⟨r0, hr0⟩ := hm k mem0 hi
          rw [hi] at hk
          exact ⟨r0, by rw [← hk, hr0]; simp [AddResourceRole_firstGrant]⟩
      · simp only [hek, if_false] at hk
        exact hm k mem hk
    obtain ⟨ih1, ih2⟩ := ih _ hstep
    refine ⟨by simpa [List.foldl_cons] using ih1, fun k => ?_⟩
    rw [List.foldl_cons, ih2 k, GoMap.index_store]
    by_cases hek : e = k
    · subst hek
      cases hi : GoMap.index m e with
      | none => simp [AddResourceRole_empty]
      | some mem0 =>
        obtain ⟨r0, hr0⟩ := hm e mem0 hi
        simp [hr0, AddResourceRole_firstGrant]
    · have hke : ¬ k = e := fun h => hek h.symm
      cases hi : GoMap.index m k <;> simp [hek, hke, hi]

theorem processBindings_spec (resourceName : String) (allRoles : RoleCatalog)
    (bindings : List Binding) (m : GoMap Member) (hm : AllFirstGrants resourceName allRoles m) :
    AllFirstGrants resourceName allRoles (processBindings resourceName bindings allRoles m)
      ∧ ∀ k, GoMap.index (processBindings resourceName bindings allRoles m) k
        = match GoMap.index m k with
          | some mem => some mem
          | none => (firstRole bindings k).map (fun role => firstGrant resourceName role allRoles) := by
  induction bindings generalizing m with
  | nil =>
    refine ⟨hm, fun k => ?_⟩
    cases hi : GoMap.index m k <;> simp [processBindings, firstRole, hi]
  | cons b rest ih =>
    obtain ⟨h1, h2⟩ := members_loop resourceName b.Role allRoles b.Members m hm
    obtain ⟨ih1, ih2⟩ := ih _ h1
    refine ⟨by simpa [processBindings, List.foldl_cons] using ih1, fun k => ?_⟩
    have := ih2 k
    simp only [processBindings, List.foldl_cons] at this ⊢
    rw [this, h2 k]
    cases hi : GoMap.index m k with
    | some mem => simp
    | none =>
      by_cases hk : k ∈ b.Members
      · simp [hk, firstRole, List.find?_cons]
      · simp [hk, firstRole, List.find?_cons]

theorem processBindings_WF (resourceName : String) (allRoles : RoleCatalog)
    (bindings : List Binding) (m : GoMap Member) (hm : GoMap.WF m) :
    GoMap.WF (processBindings resourceName bindings allRoles m) := by
  induction bindings generalizing m with
  | nil => simpa [processBindings] using hm
  | cons b rest ih =>
    simp only [processBindings, List.foldl_cons]
    apply ih
    generalize b.Members = ms
    induction ms generalizing m with
    | nil => simpa using hm
    | cons e es ihe =>
      simp only [List.foldl_cons]
      exact ihe _ (GoMap.WF_store _ _ _ hm)

theorem processBindings_nil_index (resourceName : String) (allRoles : RoleCatalog)
    (bindings : List Binding) (k : String) :
    GoMap.index (processBindings resourceName bindings allRoles []) k
      = (firstRole bindings k).map (fun role => firstGrant resourceName role allRoles) := by
  have h := (processBindings_spec resourceName allRoles bindings []
    (by intro k mem hk; simp [GoMap.index] at hk)).2 k
  simpa [GoMap.index] using h

theorem firstRole_isSome_iff (bindings : List Binding) (k : String) :
    (firstRole bindings k).isSome ↔ ∃ b ∈ bindings, k ∈ b.Members := by
  simp [firstRole, List.find?_isSome]


/-! ## Claims on `AddResourceRole` and the policy processors -/

/-- C6: the role that `AddResourceRole` appends to the looked-up resource is named after the
given role name, and its permission count is the length of the catalog's permission list
for that name when the catalog has the name and 0 when it has not.  The resource the
call works on gets exactly this role appended, and a member without a resource of that
name ends up with the new resource holding exactly this role. -/
theorem AddResourceRole_constructed_role (member : Member) (resourceName role : String)
    (allRoles : RoleCatalog) :
    ∃ r : Role,
      r.Name = role
      ∧ r.PermissionCount
          = (match GoMap.index allRoles role with
             | some permissions => permissions.length
             | none => 0)
      ∧ (Member.AddResourceRole.resource member resourceName role allRoles).Roles
          = (member.GetResourceByName resourceName).2.Roles ++ [r]
      ∧ (Member.AddResourceRole.resource member resourceName role allRoles).Name
          = (member.GetResourceByName resourceName).2.Name
      ∧ (member.AddResourceRole resourceName role allRoles).Resources
          = if (member.GetResourceByName resourceName).1 then member.Resources
            else member.Resources ++ [{ Name := resourceName, Roles := [r] }] := by
  refine ⟨{ Name := role, PermissionCount := permissionCount role allRoles }, rfl, rfl, rfl, rfl, ?_⟩
  unfold Member.AddResourceRole Member.AddResourceRole.resource Member.GetResourceByName
  cases h : member.Resources.find? (fun resource => resource.Name = resourceName) <;> simp

/-- C1 (evaluation at the failing input): a member listed in two bindings with different
roles on the same resource ends up with one role entry, the first; the second role is
appended to the copy returned by `GetResourceByName` and lost. -/
theorem processPolicyResponse_drops_second_role :
    processPolicyResponse "projects/P1"
        ⟨[⟨"roles/viewer", ["user:a@x.com"]⟩, ⟨"roles/editor", ["user:a@x.com"]⟩]⟩ []
      = [("user:a@x.com", ⟨[⟨"projects/P1", [⟨"roles/viewer", 0⟩]⟩]⟩)]
    ∧ processPolicyV2Response "folders/7"
        ⟨[⟨"roles/viewer", ["user:a@x.com"]⟩, ⟨"roles/editor", ["user:a@x.com"]⟩]⟩ []
      = [("user:a@x.com", ⟨[⟨"folders/7", [⟨"roles/viewer", 0⟩]⟩]⟩)] := by
  decide

/-- C8: a single call never produces two resource entries for one name.  In the map
returned by `processPolicyResponse` (and by `processPolicyV2Response`) no key occurs
twice, every member holds exactly one resource, named `resourceName`, and the keys are
exactly the members that occur in at least one binding. -/
theorem processPolicyResponse_one_resource_per_member (resourceName : String) (policy : Policy)
    (policyV2 : PolicyV2) (allRoles : RoleCatalog) :
    (GoMap.WF (processPolicyResponse resourceName policy allRoles)
      ∧ (∀ e ∈ processPolicyResponse resourceName policy allRoles,
          e.2.Resources.length = 1 ∧ ∀ res ∈ e.2.Resources, res.Name = resourceName)
      ∧ (∀ k, k ∈ GoMap.keys (processPolicyResponse resourceName policy allRoles)
          ↔ ∃ b ∈ policy.Bindings, k ∈ b.Members))
    ∧ (GoMap.WF (processPolicyV2Response resourceName policyV2 allRoles)
      ∧ (∀ e ∈ processPolicyV2Response resourceName policyV2 allRoles,
          e.2.Resources.length = 1 ∧ ∀ res ∈ e.2.Resources, res.Name = resourceName)
      ∧ (∀ k, k ∈ GoMap.keys (processPolicyV2Response resourceName policyV2 allRoles)
          ↔ ∃ b ∈ policyV2.Bindings, k ∈ b.Members)) := by
  have key : ∀ bindings : List Binding,
      GoMap.WF (processBindings resourceName bindings allRoles [])
      ∧ (∀ e ∈ processBindings resourceName bindings allRoles [],
          e.2.Resources.length = 1 ∧ ∀ res ∈ e.2.Resources, res.Name = resourceName)
      ∧ (∀ k, k ∈ GoMap.keys (processBindings resourceName bindings allRoles [])
          ↔ ∃ b ∈ bindings, k ∈ b.Members) := by
    intro bindings
    have hwf := processBindings_WF resourceName allRoles bindings [] GoMap.WF_nil
    refine ⟨hwf, ?_, ?_⟩
    · rintro ⟨k, mem⟩ he
      have hi := GoMap.index_of_mem _ hwf k mem he
      rw [processBindings_nil_index] at hi
      cases hr : firstRole bindings k with
      | none => simp [hr] at hi
      | some role =>
        simp only [hr, Option.map_some', Option.some.injEq] at hi
        subst hi
        simp [firstGrant]
    · intro k
      rw [← GoMap.index_isSome_iff, processBindings_nil_index, Option.isSome_map',
        firstRole_isSome_iff]
  exact ⟨key policy.Bindings, key policyV2.Bindings⟩

/-- Witness for C8 on a policy with a member listed in two bindings. -/
theorem processPolicyResponse_one_resource_per_member_witness :
    (GoMap.keys (processPolicyResponse "projects/P1"
        ⟨[⟨"roles/viewer", ["user:a@x.com", "user:b@x.com"]⟩, ⟨"roles/editor", ["user:a@x.com"]⟩]⟩
        [("roles/viewer", ["x.get"])])) = ["user:a@x.com", "user:b@x.com"]
    ∧ ∀ e ∈ processPolicyResponse "projects/P1"
        ⟨[⟨"roles/viewer", ["user:a@x.com", "user:b@x.com"]⟩, ⟨"roles/editor", ["user:a@x.com"]⟩]⟩
        [("roles/viewer", ["x.get"])],
        e.2.Resources.length = 1 ∧ ∀ res ∈ e.2.Resources, res.Name = "projects/P1" :=
  ⟨by decide,
   (processPolicyResponse_one_resource_per_member "projects/P1"
      ⟨[⟨"roles/viewer", ["user:a@x.com", "user:b@x.com"]⟩, ⟨"roles/editor", ["user:a@x.com"]⟩]⟩
      ⟨[]⟩ [("roles/viewer", ["x.get"])]).1.2.1⟩

/-! ## Merging member maps -/

theorem mergeRoleMaps_source (acc src : GoMap Member) (hs : GoMap.WF src) (k : String) :
    GoMap.index (src.foldl (fun toMembers entry =>
        GoMap.store toMembers entry.1
          (((GoMap.index toMembers entry.1).getD { Resources := [] }).Merge entry.2)) acc) k
      = match GoMap.index src k with
        | none => GoMap.index acc k
        | some v => some (((GoMap.index acc k).getD { Resources := [] }).Merge v) := by
  induction src generalizing acc with
  | nil => simp [GoMap.index]
  | cons e rest ih =>
    obtain ⟨k0, v0⟩ := e
    have hnd : k0 ∉ GoMap.keys rest ∧ GoMap.WF rest := by
      simpa [GoMap.WF, GoMap.keys] using hs
    rw [List.foldl_cons, ih _ hnd.2]
    by_cases h0 : k0 = k
    · subst h0
      have hnone : GoMap.index rest k0 = none := (GoMap.index_eq_none_iff rest k0).2 hnd.1
      simp [hnone, GoMap.index, GoMap.index_store_self]
    · simp [GoMap.index, h0, GoMap.index_store_of_ne _ _ h0]

theorem mergeRoleMaps_source_WF (acc src : GoMap Member) (ha : GoMap.WF acc) :
    GoMap.WF (src.foldl (fun toMembers entry =>
        GoMap.store toMembers entry.1
          (((GoMap.index toMembers entry.1).getD { Resources := [] }).Merge entry.2)) acc) := by
  induction src generalizing acc with
  | nil => simpa using ha
  | cons e rest ih =>
    rw [List.foldl_cons]
    exact ih _ (GoMap.WF_store _ _ _ ha)

theorem mergeRoleMaps_cons (acc src : GoMap Member) (srcs : List (GoMap Member)) :
    mergeRoleMaps acc (src :: srcs)
      = mergeRoleMaps (src.foldl (fun toMembers entry =>
          GoMap.store toMembers entry.1
            (((GoMap.index toMembers entry.1).getD { Resources := [] }).Merge entry.2)) acc) srcs := by
  simp [mergeRoleMaps]

theorem mergeRoleMaps_WF (acc : GoMap Member) (srcs : List (GoMap Member)) (ha : GoMap.WF acc) :
    GoMap.WF (mergeRoleMaps acc srcs) := by
  induction srcs generalizing acc with
  | nil => simpa [mergeRoleMaps] using ha
  | cons s rest ih =>
    rw [mergeRoleMaps_cons]
    exact ih _ (mergeRoleMaps_source_WF acc s ha)

theorem mergeRoleMaps_index (acc : GoMap Member) (srcs : List (GoMap Member))
    (hs : ∀ s ∈ srcs, GoMap.WF s) (k : String) :
    GoMap.index (mergeRoleMaps acc srcs) k
      = match GoMap.index acc k, srcs.filterMap (fun s => GoMap.index s k) with
        | none, [] => none
        | some a, found => some ⟨a.Resources ++ (found.map Member.Resources).flatten⟩
        | none, found => some ⟨(found.map Member.Resources).flatten⟩ := by
  induction srcs generalizing acc with
  | nil =>
    cases hi : GoMap.index acc k <;> simp [mergeRoleMaps, hi]
  | cons s rest ih =>
    have hs0 : GoMap.WF s := hs s (List.mem_cons_self _ _)
    have hrest : ∀ t ∈ rest, GoMap.WF t := fun t ht => hs t (List.mem_cons_of_mem _ ht)
    rw [mergeRoleMaps_cons, ih _ hrest, mergeRoleMaps_source acc s hs0 k]
    cases hsk : GoMap.index s k with
    | none => simp [List.filterMap_cons, hsk]
    | some v =>
      cases hi : GoMap.index acc k with
      | none =>
        simp only [List.filterMap_cons, hsk, Option.getD_none, Member.Merge, List.nil_append,
          List.map_cons, List.flatten_cons]
      | some a =>
        simp only [List.filterMap_cons, hsk, Option.getD_some, Member.Merge, List.map_cons,
          List.flatten_cons, List.append_assoc]

/-- C3: for every accumulator map and every sequence of source maps, the key set of
`mergeRoleMaps` is the union of the accumulator's keys and all sources' keys, and for
each such key the resulting resource list is the accumulator's list for the key followed
by the concatenation, in source order, of the resource lists of every source containing
the key; its length is the sum of those lists' lengths (nothing is deduplicated). -/
theorem mergeRoleMaps_concatenates (acc : GoMap Member) (srcs : List (GoMap Member))
    (ha : GoMap.WF acc) (hs : ∀ s ∈ srcs, GoMap.WF s) (k : String) :
    GoMap.WF (mergeRoleMaps acc srcs)
    ∧ (k ∈ GoMap.keys (mergeRoleMaps acc srcs)
        ↔ k ∈ GoMap.keys acc ∨ ∃ s ∈ srcs, k ∈ GoMap.keys s)
    ∧ GoMap.index (mergeRoleMaps acc srcs) k
        = (if (GoMap.index acc k).isSome || srcs.any (fun s => (GoMap.index s k).isSome) then
            some ⟨((GoMap.index acc k).map Member.Resources).getD []
              ++ ((srcs.filterMap (fun s => GoMap.index s k)).map Member.Resources).flatten⟩
          else none)
    ∧ (∀ mem, GoMap.index (mergeRoleMaps acc srcs) k = some mem →
        mem.Resources.length
          = (((GoMap.index acc k).map Member.Resources).getD []).length
            + ((srcs.filterMap (fun s => GoMap.index s k)).map
                (fun m => m.Resources.length)).sum) := by
  have hany : srcs.any (fun s => (GoMap.index s k).isSome) = false
      ↔ srcs.filterMap (fun s => GoMap.index s k) = [] := by
    rw [List.filterMap_eq_nil_iff]
    simp [List.any_eq_false]
  have hidx : GoMap.index (mergeRoleMaps acc srcs) k
      = (if (GoMap.index acc k).isSome || srcs.any (fun s => (GoMap.index s k).isSome) then
            some ⟨((GoMap.index acc k).map Member.Resources).getD []
              ++ ((srcs.filterMap (fun s => GoMap.index s k)).map Member.Resources).flatten⟩
          else none) := by
    rw [mergeRoleMaps_index acc srcs hs k]
    cases hi : GoMap.index acc k with
    | some a => simp
    | none =>
      cases hf : srcs.filterMap (fun s => GoMap.index s k) with
      | nil =>
        have := hany.2 hf
        simp [this]
      | cons f fs =>
        have hne : ¬ srcs.any (fun s => (GoMap.index s k).isSome) = false := by
          intro h
          rw [hany.1 h] at hf
          exact List.noConfusion hf
        have : srcs.any (fun s => (GoMap.index s k).isSome) = true := by
          cases hb : srcs.any (fun s => (GoMap.index s k).isSome)
          · exact absurd hb hne
          · rfl
        simp [this]
  refine ⟨mergeRoleMaps_WF acc srcs ha, ?_, hidx, ?_⟩
  · rw [← GoMap.index_isSome_iff, hidx, ← GoMap.index_isSome_iff]
    have hsrc : (∃ s ∈ srcs, k ∈ GoMap.keys s)
        ↔ srcs.any (fun s => (GoMap.index s k).isSome) = true := by
      simp [List.any_eq_true, GoMap.index_isSome_iff]
    rw [hsrc]
    cases h1 : (GoMap.index acc k).isSome <;>
      cases h2 : srcs.any (fun s => (GoMap.index s k).isSome) <;> simp
  · intro mem hmem
    rw [hidx] at hmem
    split at hmem
    · simp only [Option.some.injEq] at hmem
      subst hmem
      simp [List.length_flatten, Function.comp_def]
    · exact Option.noConfusion hmem

/-- Witness for C3: two sources that both hold the same member and the same resource
name; the merged member keeps both resource entries. -/
theorem mergeRoleMaps_concatenates_witness :
    GoMap.WF [("user:a", (⟨[⟨"organizations/1", []⟩]⟩ : Member))]
    ∧ (∀ s ∈ [[("user:a", (⟨[⟨"projects/p", []⟩]⟩ : Member)), ("user:b", ⟨[]⟩)],
              [("user:a", ⟨[⟨"projects/p", []⟩]⟩)]], GoMap.WF s)
    ∧ GoMap.index (mergeRoleMaps [("user:a", ⟨[⟨"organizations/1", []⟩]⟩)]
        [[("user:a", ⟨[⟨"projects/p", []⟩]⟩), ("user:b", ⟨[]⟩)],
         [("user:a", ⟨[⟨"projects/p", []⟩]⟩)]]) "user:a"
      = some ⟨[⟨"organizations/1", []⟩, ⟨"projects/p", []⟩, ⟨"projects/p", []⟩]⟩ := by
  refine ⟨by decide, by decide, ?_⟩
  have h := (mergeRoleMaps_concatenates [("user:a", ⟨[⟨"organizations/1", []⟩]⟩)]
        [[("user:a", ⟨[⟨"projects/p", []⟩]⟩), ("user:b", ⟨[]⟩)],
         [("user:a", ⟨[⟨"projects/p", []⟩]⟩)]] (by decide) (by decide) "user:a").2.2.1
  rw [h]
  decide

/-! ## Merging role catalogs -/

theorem mergeMaps_source (acc src : RoleCatalog) (hs : GoMap.WF src) (k : String) :
    GoMap.index (src.foldl (fun result entry => GoMap.store result entry.1 entry.2) acc) k
      = match GoMap.index src k with
        | some v => some v
        | none => GoMap.index acc k := by
  induction src generalizing acc with
  | nil => simp [GoMap.index]
  | cons e rest ih =>
    obtain ⟨k0, v0⟩ := e
    have hnd : k0 ∉ GoMap.keys rest ∧ GoMap.WF rest := by
      simpa [GoMap.WF, GoMap.keys] using hs
    rw [List.foldl_cons, ih _ hnd.2]
    by_cases h0 : k0 = k
    · subst h0
      have hnone : GoMap.index rest k0 = none := (GoMap.index_eq_none_iff rest k0).2 hnd.1
      simp [hnone, GoMap.index, GoMap.index_store_self]
    · simp [GoMap.index, h0, GoMap.index_store_of_ne _ _ h0]

theorem mergeMaps_source_WF (acc src : RoleCatalog) (ha : GoMap.WF acc) :
    GoMap.WF (src.foldl (fun result entry => GoMap.store result entry.1 entry.2) acc) := by
  induction src generalizing acc with
  | nil => simpa using ha
  | cons e rest ih =>
    rw [List.foldl_cons]
    exact ih _ (GoMap.WF_store _ _ _ ha)

theorem mergeMaps_from (acc : RoleCatalog) (maps : List RoleCatalog)
    (hs : ∀ m ∈ maps, GoMap.WF m) (k : String) :
    GoMap.index (maps.foldl (fun result m =>
        m.foldl (fun result entry => GoMap.store result entry.1 entry.2) result) acc) k
      = match maps.reverse.findSome? (fun m => GoMap.index m k) with
        | some v => some v
        | none => GoMap.index acc k := by
  induction maps generalizing acc with
  | nil => simp
  | cons m rest ih =>
    have hm : GoMap.WF m := hs m (List.mem_cons_self _ _)
    have hrest : ∀ t ∈ rest, GoMap.WF t := fun t ht => hs t (List.mem_cons_of_mem _ ht)
    rw [List.foldl_cons, ih _ hrest, mergeMaps_source acc m hm k, List.reverse_cons,
      List.findSome?_append]
    cases h1 : rest.reverse.findSome? (fun m => GoMap.index m k) with
    | some v => simp
    | none =>
      cases h2 : GoMap.index m k <;> simp [List.findSome?_cons, h2]

theorem mergeMaps_WF (maps : List RoleCatalog) : GoMap.WF (mergeMaps maps) := by
  unfold mergeMaps
  have key : ∀ acc : RoleCatalog, GoMap.WF acc → GoMap.WF (maps.foldl (fun result m =>
        m.foldl (fun result entry => GoMap.store result entry.1 entry.2) result) acc) := by
    induction maps with
    | nil => intro acc ha; simpa using ha
    | cons m rest ih =>
      intro acc ha
      rw [List.foldl_cons]
      exact ih _ (mergeMaps_source_WF acc m ha)
  exact key [] GoMap.WF_nil

theorem mergeMaps_index (maps : List RoleCatalog) (hs : ∀ m ∈ maps, GoMap.WF m) (k : String) :
    GoMap.index (mergeMaps maps) k = maps.reverse.findSome? (fun m => GoMap.index m k) := by
  unfold mergeMaps
  rw [mergeMaps_from [] maps hs k]
  cases maps.reverse.findSome? (fun m => GoMap.index m k) <;> simp [GoMap.index]

theorem collectRoles_WF (listed : List IamRole) : GoMap.WF (collectRoles listed) := by
  unfold collectRoles
  have key : ∀ acc : RoleCatalog, GoMap.WF acc → GoMap.WF (listed.foldl
      (fun roles role => GoMap.store roles role.Name role.IncludedPermissions) acc) := by
    induction listed with
    | nil => intro acc ha; simpa using ha
    | cons r rest ih =>
      intro acc ha
      rw [List.foldl_cons]
      exact ih _ (GoMap.WF_store _ _ _ ha)
  exact key [] GoMap.WF_nil

theorem getRolesForResource_WF (B : Backend) (resource : String) (roles : RoleCatalog)
    (h : getRolesForResource B resource = some roles) : GoMap.WF roles := by
  unfold getRolesForResource at h
  cases hq : B.queryGrantableRoles ("//cloudresourcemanager.googleapis.com/" ++ resource) with
  | none => simp [hq] at h
  | some l =>
    simp only [hq, Option.map_some', Option.some.injEq] at h
    subst h
    exact collectRoles_WF l

theorem sentRoles_WF (sent : List RoleCatalog) :
    GoMap.WF (sent.foldl (fun roles role => mergeMaps [roles, role]) []) := by
  induction sent using List.reverseRecOn with
  | nil => exact GoMap.WF_nil
  | append_singleton l a _ =>
    rw [List.foldl_append]
    exact mergeMaps_WF _

theorem getAllProjectPolicies_WF (B : Backend) (S : Sched) (validParents : StrSet)
    (projectLabels : GoMap String) (roles : RoleCatalog) (projects : List Project)
    (h : getAllProjectPolicies B S validParents projectLabels = some (roles, projects)) :
    GoMap.WF roles := by
  unfold getAllProjectPolicies at h
  split at h
  · exact Option.noConfusion h
  · split at h
    · exact Option.noConfusion h
    · split at h
      · exact Option.noConfusion h
      · split at h
        · exact Option.noConfusion h
        · simp only [Option.some.injEq, Prod.mk.injEq] at h
          rw [← h.1]
          exact sentRoles_WF _

/-- C4: for every sequence of role catalogs, the key set of `mergeMaps` is the union of
the inputs' key sets and the value of every key is its value in the last input that
contains it.  In `getAllRoles`, which merges (built-in, organization-grantable,
project-grantable), a project-grantable entry therefore overrides an
organization-grantable one, which overrides a built-in one. -/
theorem mergeMaps_last_input_wins (maps : List RoleCatalog) (hwf : ∀ m ∈ maps, GoMap.WF m)
    (k : String) (B : Backend) (S : Sched) (organizationResource : String)
    (projectLabels : GoMap String) :
    GoMap.WF (mergeMaps maps)
    ∧ (k ∈ GoMap.keys (mergeMaps maps) ↔ ∃ m ∈ maps, k ∈ GoMap.keys m)
    ∧ GoMap.index (mergeMaps maps) k = maps.reverse.findSome? (fun m => GoMap.index m k)
    ∧ (∀ allRoles projects folderNames,
        getAllRoles B S organizationResource projectLabels
          = some (allRoles, projects, folderNames) →
        ∃ builtInRoles orgRoles projectRoles,
          getBuiltInRoles B = some builtInRoles
          ∧ getRolesForResource B organizationResource = some orgRoles
          ∧ getAllProjectPolicies B S
              (StrSet.Add (StrSet.Add ⟨[]⟩ [organizationResource]) folderNames) projectLabels
              = some (projectRoles, projects)
          ∧ GoMap.index allRoles k
              = (match GoMap.index projectRoles k with
                 | some v => some v
                 | none =>
                   match GoMap.index orgRoles k with
                   | some v => some v
                   | none => GoMap.index builtInRoles k)) := by
  refine ⟨mergeMaps_WF maps, ?_, mergeMaps_index maps hwf k, ?_⟩
  · rw [← GoMap.index_isSome_iff, mergeMaps_index maps hwf k]
    simp only [← GoMap.index_isSome_iff]
    constructor
    · intro h
      obtain ⟨v, hv⟩ := Option.isSome_iff_exists.1 h
      obtain ⟨m, hm, hmv⟩ := List.exists_of_findSome?_eq_some hv
      exact ⟨m, List.mem_reverse.1 hm, by simp [hmv]⟩
    · rintro ⟨m, hm, hmk⟩
      cases hf : maps.reverse.findSome? (fun m => GoMap.index m k) with
      | some v => rfl
      | none =>
        rw [List.findSome?_eq_none_iff] at hf
        have := hf m (List.mem_reverse.2 hm)
        simp [this] at hmk
  · intro allRoles projects folderNames h
    unfold getAllRoles at h
    cases hb : getBuiltInRoles B with
    | none => simp [hb] at h
    | some builtInRoles =>
      cases ho : getRolesForResource B organizationResource with
      | none => simp [hb, ho] at h
      | some orgRoles =>
        simp only [hb, ho] at h
        cases hp : getAllProjectPolicies B S
            (StrSet.Add (StrSet.Add ⟨[]⟩ [organizationResource])
              (getFolderNames B organizationResource).1) projectLabels with
        | none => simp [hp] at h
        | some res =>
          obtain ⟨projectRoles, projects0⟩ := res
          simp only [hp, Option.some.injEq, Prod.mk.injEq] at h
          obtain ⟨h1, h2, h3⟩ := h
          subst h1 h2 h3
          refine ⟨builtInRoles, orgRoles, projectRoles, rfl, rfl, hp, ?_⟩
          have hbw : GoMap.WF builtInRoles := by
            unfold getBuiltInRoles at hb
            cases hl : B.rolesList with
            | none => simp [hl] at hb
            | some l =>
              simp only [hl, Option.map_some', Option.some.injEq] at hb
              subst hb
              exact collectRoles_WF l
          have how := getRolesForResource_WF B organizationResource orgRoles ho
          have hpw := getAllProjectPolicies_WF B S _ projectLabels projectRoles projects0 hp
          rw [mergeMaps_index [builtInRoles, orgRoles, projectRoles]
            (by
              intro m hm
              simp only [List.mem_cons, List.mem_singleton, List.not_mem_nil, or_false] at hm
              rcases hm with rfl | rfl | rfl
              · exact hbw
              · exact how
              · exact hpw) k]
          cases h1 : GoMap.index projectRoles k <;>
            cases h2 : GoMap.index orgRoles k <;>
              cases h3 : GoMap.index builtInRoles k <;>
                simp [List.findSome?_cons, h1, h2, h3]

/-- Witness for C4: three catalogs sharing keys, and a run in which a role is known to
the built-in catalog, the organization and a project. -/
theorem mergeMaps_last_input_wins_witness :
    (∀ m ∈ [[("roles/x", ["1"]), ("roles/y", ["1"])], [("roles/y", ["2"])], ([] : RoleCatalog)],
      GoMap.WF m)
    ∧ GoMap.index (mergeMaps [[("roles/x", ["1"]), ("roles/y", ["1"])], [("roles/y", ["2"])], []])
        "roles/y" = some ["2"]
    ∧ (getAllRoles overrideBackend Sched.fifo "organizations/111" []).map
        (fun r => GoMap.index r.1 "roles/z") = some (some ["project"]) := by
  refine ⟨by decide, ?_, by decide⟩
  rw [(mergeMaps_last_input_wins [[("roles/x", ["1"]), ("roles/y", ["1"])], [("roles/y", ["2"])], []]
    (by decide) "roles/y" overrideBackend Sched.fifo "organizations/111" []).2.2.1]
  decide

/-! ## The folder walker -/

theorem geometric_succ (B D : Nat) : geometric B (D + 1) = B + B * geometric B D := by
  unfold geometric
  rw [Finset.sum_range_succ', Finset.mul_sum]
  simp only [zero_add, pow_one]
  rw [add_comm]
  congr 1
  apply Finset.sum_congr rfl
  intro i _
  ring

mutual
theorem walk_allOk : (t : Listing) → t.allOk = true →
    (_getFolderNamesRecursive t).2 = false
      ∧ (_getFolderNamesRecursive t).1 = t.folders.map Prod.fst ++ walkChildren t.folders
      ∧ (_getFolderNamesRecursive t).1.Perm t.nested
  | .mk folders err, h => by
    simp only [Listing.allOk, Bool.and_eq_true, Bool.not_eq_true'] at h
    obtain ⟨herr, hfs⟩ := h
    subst herr
    have hc := walkChildren_allOk folders hfs
    simp only [_getFolderNamesRecursive, Listing.folders, Listing.nested]
    exact ⟨by simp, by simp, by simpa using hc.2⟩
theorem walkChildren_allOk : (fs : List (String × Listing)) → allOkList fs = true →
    walkChildren fs = (fs.map (fun c => (_getFolderNamesRecursive c.2).1)).flatten
      ∧ (fs.map Prod.fst ++ walkChildren fs).Perm (nestedList fs)
  | [], _ => by simp [walkChildren, nestedList]
  | (name, answer) :: rest, h => by
    simp only [allOkList, Bool.and_eq_true] at h
    obtain ⟨ha, hr⟩ := h
    obtain ⟨h1, _, h3⟩ := walk_allOk answer ha
    obtain ⟨r1, r2⟩ := walkChildren_allOk rest hr
    refine ⟨by simp [walkChildren, h1, r1], ?_⟩
    simp only [walkChildren, h1, nestedList, List.map_cons, List.cons_append]
    refine List.Perm.cons name ?_
    have e1 : (List.map Prod.fst rest
          ++ ((if false = true then [] else (_getFolderNamesRecursive answer).1)
            ++ walkChildren rest)).Perm
        ((_getFolderNamesRecursive answer).1 ++ (List.map Prod.fst rest ++ walkChildren rest)) := by
      simp only [Bool.false_eq_true, if_false]
      rw [← List.append_assoc, ← List.append_assoc]
      exact List.Perm.append_right _ List.perm_append_comm
    exact e1.trans (List.Perm.append h3 r2)
end

mutual
theorem walk_balanced_length (B : Nat) : (D : Nat) → (t : Listing) → t.allOk = true →
    t.balanced B D = true → (_getFolderNamesRecursive t).1.length = geometric B D
  | 0, .mk folders err, h, hb => by
    simp only [Listing.allOk, Bool.and_eq_true, Bool.not_eq_true'] at h
    simp only [Listing.balanced, List.isEmpty_iff] at hb
    obtain ⟨herr, _⟩ := h
    subst herr hb
    simp [_getFolderNamesRecursive, walkChildren, geometric]
  | D + 1, .mk folders err, h, hb => by
    simp only [Listing.allOk, Bool.and_eq_true, Bool.not_eq_true'] at h
    simp only [Listing.balanced, Bool.and_eq_true, beq_iff_eq] at hb
    obtain ⟨herr, hfs⟩ := h
    obtain ⟨hlen, hbl⟩ := hb
    subst herr
    have hc := walkChildren_balanced_length B D folders hfs hbl
    simp only [_getFolderNamesRecursive, Bool.false_eq_true, if_false, List.length_append,
      List.length_map, hc, hlen, geometric_succ]
theorem walkChildren_balanced_length (B : Nat) : (D : Nat) → (fs : List (String × Listing)) →
    allOkList fs = true → balancedList B D fs = true →
    (walkChildren fs).length = fs.length * geometric B D
  | _, [], _, _ => by simp [walkChildren]
  | D, (name, answer) :: rest, h, hb => by
    simp only [allOkList, Bool.and_eq_true] at h
    simp only [balancedList, Bool.and_eq_true] at hb
    have h1 := walk_balanced_length B D answer h.1 hb.1
    have h2 := walkChildren_balanced_length B D rest h.2 hb.2
    have hok := (walk_allOk answer h.1).1
    simp only [walkChildren, hok, Bool.false_eq_true, if_false, List.length_append, h1, h2,
      List.length_cons]
    ring
end

/-- C5: on every finite folder tree in which every child listing succeeds,
`_getFolderNamesRecursive` returns without error the root's direct children followed by
the results of walking each child in order; the returned list is a rearrangement of the
names of all folders nested directly or transitively under the root, one entry per such
folder, so it repeats no name when the folders have distinct names and does not hold the
root's own name when no nested folder bears it; for a perfectly balanced tree of depth
`D` and branching factor `B` its length is `B^1 + B^2 + ... + B^D`. -/
theorem getFolderNamesRecursive_complete (t : Listing) (h : t.allOk = true) (B D : Nat)
    (root : String) :
    (_getFolderNamesRecursive t).2 = false
    ∧ (_getFolderNamesRecursive t).1
        = t.folders.map Prod.fst
          ++ (t.folders.map (fun child => (_getFolderNamesRecursive child.2).1)).flatten
    ∧ (_getFolderNamesRecursive t).1.Perm t.nested
    ∧ (t.nested.Nodup → (_getFolderNamesRecursive t).1.Nodup)
    ∧ (root ∉ t.nested → root ∉ (_getFolderNamesRecursive t).1)
    ∧ (t.balanced B D = true →
        (_getFolderNamesRecursive t).1.length = ∑ i ∈ Finset.range D, B ^ (i + 1)) := by
  obtain ⟨h1, h2, h3⟩ := walk_allOk t h
  have hfs : allOkList t.folders = true := by
    cases t with
    | mk folders err =>
      simp only [Listing.allOk, Bool.and_eq_true] at h
      exact h.2
  refine ⟨h1, ?_, h3, fun hn => h3.nodup_iff.2 hn, fun hr hmem => hr (h3.mem_iff.1 hmem),
    fun hb => walk_balanced_length B D t h hb⟩
  rw [h2, (walkChildren_allOk t.folders hfs).1]

/-- Witness for C5: the balanced tree of branching factor 2 and depth 2 has 2 + 4 folders. -/
theorem getFolderNamesRecursive_complete_witness :
    balancedTree22.allOk = true
    ∧ balancedTree22.balanced 2 2 = true
    ∧ _getFolderNamesRecursive balancedTree22
        = (["folders/1", "folders/2", "folders/11", "folders/12", "folders/21", "folders/22"],
            false)
    ∧ (_getFolderNamesRecursive balancedTree22).1.length = ∑ i ∈ Finset.range 2, 2 ^ (i + 1) :=
  ⟨by decide, by decide, by decide,
   (getFolderNamesRecursive_complete balancedTree22 (by decide) 2 2
      "organizations/111").2.2.2.2.2 (by decide)⟩

mutual
theorem walk_withoutFailed : (t : Listing) →
    (_getFolderNamesRecursive t.withoutFailed).2 = false
      ∧ (_getFolderNamesRecursive t.withoutFailed).1
          = if (_getFolderNamesRecursive t).2 then [] else (_getFolderNamesRecursive t).1
  | .mk folders err => by
    cases err with
    | true => simp [Listing.withoutFailed, _getFolderNamesRecursive, walkChildren]
    | false =>
      obtain ⟨h1, h2⟩ := walkChildren_withoutFailed folders
      simp [Listing.withoutFailed, _getFolderNamesRecursive, h1, h2]
theorem walkChildren_withoutFailed : (fs : List (String × Listing)) →
    (withoutFailedList fs).map Prod.fst = fs.map Prod.fst
      ∧ walkChildren (withoutFailedList fs) = walkChildren fs
  | [] => by simp [withoutFailedList]
  | (name, answer) :: rest => by
    obtain ⟨h1, h2⟩ := walk_withoutFailed answer
    obtain ⟨r1, r2⟩ := walkChildren_withoutFailed rest
    simp [withoutFailedList, walkChildren, h1, h2, r1, r2]
end

mutual
theorem withoutFailed_allOk : (t : Listing) → t.withoutFailed.allOk = true
  | .mk folders err => by
    cases err with
    | true => simp [Listing.withoutFailed, Listing.allOk, allOkList]
    | false => simp [Listing.withoutFailed, Listing.allOk, withoutFailedList_allOk folders]
theorem withoutFailedList_allOk : (fs : List (String × Listing)) →
    allOkList (withoutFailedList fs) = true
  | [] => by simp [withoutFailedList, allOkList]
  | (_, answer) :: rest => by
    simp [withoutFailedList, allOkList, withoutFailed_allOk answer, withoutFailedList_allOk rest]
end

/-- C9 (evaluation at the failing input): when the listing of the root's children fails
after a page was delivered, the folder list used by the run holds the delivered names,
whereas the walker returns no folder at all on the tree with the root's children removed. -/
theorem getAllRoles_keeps_names_of_failed_root_listing :
    (getAllRoles failedRootBackend Sched.fifo "organizations/111" []).map (fun r => r.2.2)
      = some ["folders/1"]
    ∧ (_getFolderNamesRecursive
        (failedRootBackend.foldersList "organizations/111").withoutFailed).1 = [] := by
  decide

/-- Below the root the walker does treat a failed listing as an empty one: when the
listing of the root succeeds, the folder list is the one the walker returns on the tree
in which every failed listing is replaced by an empty successful one. -/
theorem getFolderNames_failed_below_root (B : Backend) (organizationResource : String)
    (hc : B.defaultClient = true) (hroot : (B.foldersList organizationResource).err = false) :
    getFolderNames B organizationResource
      = _getFolderNamesRecursive (B.foldersList organizationResource).withoutFailed := by
  have h := walk_withoutFailed (B.foldersList organizationResource)
  have hok : (_getFolderNamesRecursive (B.foldersList organizationResource)).2 = false := by
    cases ht : B.foldersList organizationResource with
    | mk folders err =>
      rw [ht] at hroot
      simp only [Listing.err] at hroot
      subst hroot
      simp [_getFolderNamesRecursive]
  simp only [getFolderNames, hc, if_true]
  rw [hok] at h
  exact Prod.ext (by simpa using h.2.symm) (by rw [hok, h.1])

/-! ## The project filter -/

theorem foldl_append_singleton {α β : Type} (f : α → β) (l : List α) (init : List β) :
    l.foldl (fun acc e => acc ++ [f e]) init = init ++ l.map f := by
  induction l generalizing init with
  | nil => simp
  | cons a rest ih => simp [List.foldl_cons, ih]

/-- C7: for every label map, `buildProjectFilter` is the space-joined list of terms whose
first term is `lifecycleState:ACTIVE` and whose remaining terms are exactly one term
`labels.<key>=<value>` per entry of the map, in the order the map is visited; for the
empty map it is `lifecycleState:ACTIVE`, and for the map with the one entry `env` to
`prod` it is `lifecycleState:ACTIVE labels.env=prod`. -/
theorem buildProjectFilter_terms (projectLabels : GoMap String) :
    buildProjectFilter projectLabels
      = " ".intercalate ("lifecycleState:ACTIVE"
          :: projectLabels.map (fun entry => "labels." ++ entry.1 ++ "=" ++ entry.2))
    ∧ buildProjectFilter [] = "lifecycleState:ACTIVE"
    ∧ buildProjectFilter [("env", "prod")] = "lifecycleState:ACTIVE labels.env=prod" := by
  refine ⟨?_, by decide, by decide⟩
  unfold buildProjectFilter
  rw [foldl_append_singleton (fun entry : String × String => "labels." ++ entry.1 ++ "=" ++ entry.2)]
  rfl

/-! ## Label parsing -/

theorem splitChars_eq (sep : Char) (cs : List Char) :
    splitChars sep cs
      = cs.takeWhile (fun c => c != sep)
        :: (match cs.dropWhile (fun c => c != sep) with
            | [] => []
            | _ :: rest => splitChars sep rest) := by
  induction cs with
  | nil => simp [splitChars]
  | cons c cs ih =>
    by_cases h : c = sep
    · subst h
      simp [splitChars, List.takeWhile_cons, List.dropWhile_cons]
    · have hb : (c != sep) = true := by simpa using h
      rw [splitChars, if_neg h, ih]
      simp [List.takeWhile_cons, List.dropWhile_cons, hb]

theorem dropWhile_ne_nil_iff (sep : Char) (cs : List Char) :
    cs.dropWhile (fun c => c != sep) ≠ [] ↔ sep ∈ cs := by
  induction cs with
  | nil => simp
  | cons c cs ih =>
    by_cases h : c = sep
    · subst h
      simp [List.dropWhile_cons]
    · have hb : (c != sep) = true := by simpa using h
      simp [List.dropWhile_cons, hb, ih, Ne.symm h]

theorem dropWhile_head (sep : Char) (cs : List Char) (c : Char) (rest : List Char)
    (h : cs.dropWhile (fun c => c != sep) = c :: rest) : c = sep := by
  induction cs with
  | nil => simp at h
  | cons d ds ih =>
    by_cases hd : d = sep
    · subst hd
      simp only [List.dropWhile_cons, bne_self_eq_false, Bool.false_eq_true, if_false,
        List.cons.injEq] at h
      exact h.1.symm
    · have hb : (d != sep) = true := by simpa using hd
      simp only [List.dropWhile_cons, hb, if_true] at h
      exact ih h

theorem Split_index_zero (s : String) (sep : Char) :
    (Split s sep)[0]? = some (String.mk (s.data.takeWhile (fun c => c != sep))) := by
  unfold Split
  rw [splitChars_eq]
  simp

theorem Split_index_one (s : String) (sep : Char) :
    (Split s sep)[1]?
      = if sep ∈ s.data then
          some (String.mk
            (((s.data.dropWhile (fun c => c != sep)).drop 1).takeWhile (fun c => c != sep)))
        else none := by
  unfold Split
  rw [splitChars_eq]
  by_cases h : sep ∈ s.data
  · have hne := (dropWhile_ne_nil_iff sep s.data).2 h
    cases hd : s.data.dropWhile (fun c => c != sep) with
    | nil => exact absurd hd hne
    | cons c rest =>
      simp only [h, if_true, List.map_cons, List.drop_succ_cons, List.drop_zero]
      rw [splitChars_eq]
      simp
  · have hnil : s.data.dropWhile (fun c => c != sep) = [] := by
      by_contra hne
      exact h ((dropWhile_ne_nil_iff sep s.data).1 hne)
    simp [h, hnil]

theorem length_pos_iff_ne_empty (s : String) : s.length > 0 ↔ s ≠ "" := by
  cases s with
  | mk data =>
    cases data with
    | nil => simp [String.length]
    | cons c cs =>
      simp only [String.length, List.length_cons, gt_iff_lt, Nat.zero_lt_succ, ne_eq, true_iff]
      intro h
      have := congrArg String.data h
      simp at this

/-- The body of the loop of `parseLabels` for one segment. -/
theorem parseLabels_step (labels : GoMap String) (segment : String) :
    (if segment.length > 0 then
        match (Split segment ':')[0]?, (Split segment ':')[1]? with
        | some key, some value => some (GoMap.store labels key value)
        | _, _ => none
      else some labels)
      = if segment ≠ "" then
          (if ':' ∈ segment.data then
            some (GoMap.store labels (labelKey segment) (labelValue segment))
          else none)
        else some labels := by
  by_cases h : segment ≠ ""
  · have hl : segment.length > 0 := (length_pos_iff_ne_empty segment).2 h
    rw [if_pos hl, if_pos h, Split_index_zero, Split_index_one]
    by_cases hc : ':' ∈ segment.data
    · simp [hc, labelKey, labelValue]
    · simp [hc]
  · have hl : ¬ segment.length > 0 := fun hl => h ((length_pos_iff_ne_empty segment).1 hl)
    rw [if_neg hl, if_neg h]

theorem parseLabels_loop (segments : List String) (labels : GoMap String) :
    segments.foldlM (fun labels rawLabelMap =>
        if rawLabelMap.length > 0 then
          match (Split rawLabelMap ':')[0]?, (Split rawLabelMap ':')[1]? with
          | some key, some value => some (GoMap.store labels key value)
          | _, _ => none
        else some labels) labels
      = if ∀ segment ∈ segments, segment ≠ "" → ':' ∈ segment.data then
          some ((segments.filter (fun segment => segment ≠ "")).foldl
            (fun labels segment => GoMap.store labels (labelKey segment) (labelValue segment))
            labels)
        else none := by
  induction segments generalizing labels with
  | nil => simp
  | cons seg rest ih =>
    rw [List.foldlM_cons, parseLabels_step]
    by_cases h : seg ≠ ""
    · by_cases hc : ':' ∈ seg.data
      · simp only [h, hc, if_true, ne_eq, not_false_eq_true, Option.bind_eq_bind,
          Option.some_bind, ih, List.mem_cons, forall_eq_or_imp, true_and, imp_self,
          List.filter_cons, decide_True, List.foldl_cons, decide_not]
        simp [h]
      · have hn : ¬ ∀ segment ∈ seg :: rest, segment ≠ "" → ':' ∈ segment.data :=
          fun hall => hc (hall seg (List.mem_cons_self _ _) h)
        simp only [h, hc, if_true, if_false, ne_eq, not_false_eq_true, Option.bind_eq_bind,
          Option.none_bind]
        rw [if_neg hn]
    · have he : seg = "" := not_not.1 h
      subst he
      simp only [ne_eq, not_true_eq_false, if_false, Option.bind_eq_bind, Option.some_bind, ih,
        List.mem_cons, forall_eq_or_imp, IsEmpty.forall_iff, true_and, List.filter_cons,
        decide_False, Bool.false_eq_true, decide_not]
      simp

theorem index_foldl_store {α : Type} (f : α → String) (g : α → String) (l : List α)
    (acc : GoMap String) (k : String) :
    GoMap.index (l.foldl (fun labels x => GoMap.store labels (f x) (g x)) acc) k
      = match l.reverse.find? (fun x => f x = k) with
        | some x => some (g x)
        | none => GoMap.index acc k := by
  induction l generalizing acc with
  | nil => simp
  | cons a rest ih =>
    rw [List.foldl_cons, ih, List.reverse_cons, List.find?_append]
    cases hr : rest.reverse.find? (fun x => f x = k) with
    | some x => simp
    | none =>
      by_cases ha : f a = k
      · simp [List.find?_cons, ha, GoMap.index_store_self]
      · simp [List.find?_cons, ha, GoMap.index_store_of_ne _ _ ha]

theorem labelsOfSegments_WF (segments : List String) : GoMap.WF (labelsOfSegments segments) := by
  unfold labelsOfSegments
  have key : ∀ (l : List String) (acc : GoMap String), GoMap.WF acc →
      GoMap.WF (l.foldl
        (fun labels segment => GoMap.store labels (labelKey segment) (labelValue segment)) acc) := by
    intro l
    induction l with
    | nil => intro acc ha; simpa using ha
    | cons a rest ih =>
      intro acc ha
      rw [List.foldl_cons]
      exact ih _ (GoMap.WF_store _ _ _ ha)
  exact key _ [] GoMap.WF_nil

/-- C10: `parseLabels` completes without an out-of-range index exactly when every
non-empty comma-separated segment of the raw string contains a `':'`.  Under that
precondition it returns the map that sends, for each non-empty segment, the text before
the segment's first `':'` to the text between its first and second `':'` (the rest of
the segment when there is no second one), a later segment overriding an earlier one
with the same key.  The empty string yields the empty map, and the segment `env`,
which has no `':'`, makes the indexing fail. -/
theorem parseLabels_completes_iff (rawLabels : String) (k : String) :
    ((parseLabels rawLabels).isSome
        ↔ ∀ segment ∈ Split rawLabels ',', segment ≠ "" → ':' ∈ segment.data)
    ∧ ((∀ segment ∈ Split rawLabels ',', segment ≠ "" → ':' ∈ segment.data) →
        parseLabels rawLabels = some (labelsOfSegments (Split rawLabels ','))
        ∧ GoMap.WF (labelsOfSegments (Split rawLabels ','))
        ∧ GoMap.index (labelsOfSegments (Split rawLabels ',')) k
            = ((((Split rawLabels ',').filter (fun segment => segment ≠ "")).reverse.find?
                (fun segment => labelKey segment = k)).map labelValue))
    ∧ parseLabels "" = some []
    ∧ parseLabels "env" = none := by
  have hloop : parseLabels rawLabels
      = if ∀ segment ∈ Split rawLabels ',', segment ≠ "" → ':' ∈ segment.data then
          some (labelsOfSegments (Split rawLabels ','))
        else none := by
    unfold parseLabels labelsOfSegments
    exact parseLabels_loop (Split rawLabels ',') []
  refine ⟨?_, ?_, by decide, by decide⟩
  · rw [hloop]
    by_cases h : ∀ segment ∈ Split rawLabels ',', segment ≠ "" → ':' ∈ segment.data
    · simp only [if_pos h, Option.isSome_some, true_iff]
      exact h
    · simp only [if_neg h, Option.isSome_none, Bool.false_eq_true, false_iff]
      exact h
  · intro h
    refine ⟨by rw [hloop, if_pos h], labelsOfSegments_WF _, ?_⟩
    unfold labelsOfSegments
    rw [index_foldl_store labelKey labelValue]
    cases ((Split rawLabels ',').filter (fun segment => segment ≠ "")).reverse.find?
        (fun segment => labelKey segment = k) <;> simp [GoMap.index]

/-- Witness for C10: a raw string with an empty segment, a segment with two `':'` and a
repeated key. -/
theorem parseLabels_completes_iff_witness :
    (∀ segment ∈ Split "env:dev,,project:foo:bar,env:x" ',',
        segment ≠ "" → ':' ∈ segment.data)
    ∧ parseLabels "env:dev,,project:foo:bar,env:x"
        = some (labelsOfSegments (Split "env:dev,,project:foo:bar,env:x" ','))
    ∧ labelsOfSegments (Split "env:dev,,project:foo:bar,env:x" ',')
        = [("env", "x"), ("project", "foo")] :=
  ⟨by decide,
   ((parseLabels_completes_iff "env:dev,,project:foo:bar,env:x" "env").2.1 (by decide)).1,
   by decide⟩

/-! ## The pipeline -/

theorem sendAll_mem {α β : Type} (task : α → Option β) (l : List α) (sent : List β)
    (h : sendAll task l = some sent) (x : α) (hx : x ∈ l) : ∃ y ∈ sent, task x = some y := by
  induction l generalizing sent with
  | nil => simp at hx
  | cons a rest ih =>
    cases ha : task a with
    | none => simp [sendAll, ha] at h
    | some b =>
      cases hr : sendAll task rest with
      | none => simp [sendAll, ha, hr] at h
      | some bs =>
        simp only [sendAll, ha, hr, Option.map_some', Option.some.injEq] at h
        subst h
        rcases List.mem_cons.1 hx with rfl | hx'
        · exact ⟨b, List.mem_cons_self _ _, ha⟩
        · obtain ⟨y, hy, hfy⟩ := ih bs hr hx'
          exact ⟨y, List.mem_cons_of_mem _ hy, hfy⟩

theorem sendAll_sender {α β : Type} (task : α → Option β) (l : List α) (sent : List β)
    (h : sendAll task l = some sent) (y : β) (hy : y ∈ sent) : ∃ x ∈ l, task x = some y := by
  induction l generalizing sent with
  | nil =>
    simp only [sendAll, Option.some.injEq] at h
    subst h
    simp at hy
  | cons a rest ih =>
    cases ha : task a with
    | none => simp [sendAll, ha] at h
    | some b =>
      cases hr : sendAll task rest with
      | none => simp [sendAll, ha, hr] at h
      | some bs =>
        simp only [sendAll, ha, hr, Option.map_some', Option.some.injEq] at h
        subst h
        rcases List.mem_cons.1 hy with rfl | hy'
        · exact ⟨a, List.mem_cons_self _ _, ha⟩
        · obtain ⟨x, hx, hfx⟩ := ih bs hr hy'
          exact ⟨x, List.mem_cons_of_mem _ hx, hfx⟩

theorem projectCallback_loop (validParents : StrSet) (listed : List Project)
    (acc res : List Project × List Project)
    (h : listed.foldlM (projectCallback validParents) acc = some res) :
    res.1 = acc.1 ++ listed
      ∧ res.2 = acc.2 ++ listed.filter (hasValidParent validParents) := by
  induction listed generalizing acc with
  | nil =>
    simp only [List.foldlM_nil, Option.pure_def, Option.some.injEq] at h
    subst h
    simp
  | cons p rest ih =>
    rw [List.foldlM_cons] at h
    cases hp : p.Parent with
    | none => simp [projectCallback, hp] at h
    | some parent =>
      by_cases hv : validParents.Contains (parent.Type_ ++ "s/" ++ parent.Id) = true
      · simp only [projectCallback, hp, hv, if_true, Option.bind_eq_bind, Option.some_bind] at h
        obtain ⟨h1, h2⟩ := ih _ h
        simp [h1, h2, List.filter_cons, hasValidParent, hp, hv]
      · simp only [projectCallback, hp, hv, if_false, Option.bind_eq_bind, Option.some_bind,
          Bool.false_eq_true] at h
        obtain ⟨h1, h2⟩ := ih _ h
        simp [h1, h2, List.filter_cons, hasValidParent, hp, hv]

theorem getAllProjectPolicies_some (B : Backend) (S : Sched) (validParents : StrSet)
    (projectLabels : GoMap String) (roles : RoleCatalog) (projects : List Project)
    (h : getAllProjectPolicies B S validParents projectLabels = some (roles, projects)) :
    B.projectsList (buildProjectFilter projectLabels) = some projects
      ∧ ∃ sent, sendAll (getProjectRoles B)
            (S.order (projects.filter (hasValidParent validParents))) = some sent
          ∧ roles = sent.foldl (fun roles role => mergeMaps [roles, role]) [] := by
  unfold getAllProjectPolicies at h
  cases hl : B.projectsList (buildProjectFilter projectLabels) with
  | none => simp [hl] at h
  | some listed =>
    simp only [hl] at h
    cases hf : listed.foldlM (projectCallback validParents) ([], []) with
    | none => simp [hf] at h
    | some res =>
      obtain ⟨ps, started⟩ := res
      obtain ⟨h1, h2⟩ := projectCallback_loop validParents listed _ _ hf
      simp only [List.nil_append] at h1 h2
      subst h1 h2
      simp only [hf] at h
      split at h
      · exact Option.noConfusion h
      · split at h
        · exact Option.noConfusion h
        · rename_i sent hs
          simp only [Option.some.injEq, Prod.mk.injEq] at h
          exact ⟨by rw [h.2], sent, by rw [← h.2]; exact hs, h.1.symm⟩

theorem getAllRoles_some (B : Backend) (S : Sched) (organizationResource : String)
    (projectLabels : GoMap String) (allRoles : RoleCatalog) (projects : List Project)
    (folderNames : List String)
    (h : getAllRoles B S organizationResource projectLabels
      = some (allRoles, projects, folderNames)) :
    folderNames = (getFolderNames B organizationResource).1
      ∧ ∃ builtInRoles orgRoles projectRoles,
          getBuiltInRoles B = some builtInRoles
          ∧ getRolesForResource B organizationResource = some orgRoles
          ∧ getAllProjectPolicies B S
              (StrSet.Add (StrSet.Add ⟨[]⟩ [organizationResource]) folderNames) projectLabels
              = some (projectRoles, projects)
          ∧ allRoles = mergeMaps [builtInRoles, orgRoles, projectRoles] := by
  unfold getAllRoles at h
  cases hb : getBuiltInRoles B with
  | none => simp [hb] at h
  | some builtInRoles =>
    cases ho : getRolesForResource B organizationResource with
    | none => simp [hb, ho] at h
    | some orgRoles =>
      simp only [hb, ho] at h
      cases hp : getAllProjectPolicies B S
          (StrSet.Add (StrSet.Add ⟨[]⟩ [organizationResource])
            (getFolderNames B organizationResource).1) projectLabels with
      | none => simp [hp] at h
      | some res =>
        obtain ⟨projectRoles, projects0⟩ := res
        simp only [hp, Option.some.injEq, Prod.mk.injEq] at h
        obtain ⟨h1, h2, h3⟩ := h
        subst h1 h2 h3
        exact ⟨rfl, builtInRoles, orgRoles, projectRoles, rfl, rfl, hp, rfl⟩

theorem mergeRoleMaps_contains (acc : GoMap Member) (srcs : List (GoMap Member))
    (hs : ∀ s ∈ srcs, GoMap.WF s) (k : String) (s : GoMap Member) (hmem : s ∈ srcs)
    (v : Member) (hv : GoMap.index s k = some v) :
    ∃ mem, GoMap.index (mergeRoleMaps acc srcs) k = some mem
      ∧ ∀ r ∈ v.Resources, r ∈ mem.Resources := by
  have hfound : v ∈ srcs.filterMap (fun s => GoMap.index s k) :=
    List.mem_filterMap.2 ⟨s, hmem, hv⟩
  have hflat : ∀ r ∈ v.Resources,
      r ∈ ((srcs.filterMap (fun s => GoMap.index s k)).map Member.Resources).flatten := by
    intro r hr
    exact List.mem_flatten.2 ⟨v.Resources, List.mem_map.2 ⟨v, hfound, rfl⟩, hr⟩
  rw [mergeRoleMaps_index acc srcs hs k]
  cases hi : GoMap.index acc k with
  | some a =>
    exact ⟨_, rfl, fun r hr => List.mem_append_right _ (hflat r hr)⟩
  | none =>
    cases hf : srcs.filterMap (fun s => GoMap.index s k) with
    | nil => rw [hf] at hfound; simp at hfound
    | cons f fs =>
      refine ⟨_, rfl, fun r hr => ?_⟩
      rw [← hf]
      exact hflat r hr

theorem foldl_mergeRoleMaps (sent : List (GoMap Member)) (acc : GoMap Member) :
    sent.foldl (fun allMembers m => mergeRoleMaps allMembers [m]) acc = mergeRoleMaps acc sent := by
  induction sent generalizing acc with
  | nil => simp [mergeRoleMaps]
  | cons s rest ih =>
    rw [List.foldl_cons, ih, mergeRoleMaps_cons]
    simp [mergeRoleMaps]

theorem processPolicyResponse_WF (resourceName : String) (policy : Policy)
    (allRoles : RoleCatalog) : GoMap.WF (processPolicyResponse resourceName policy allRoles) :=
  processBindings_WF resourceName allRoles policy.Bindings [] GoMap.WF_nil

theorem processPolicyV2Response_WF (resourceName : String) (policy : PolicyV2)
    (allRoles : RoleCatalog) : GoMap.WF (processPolicyV2Response resourceName policy allRoles) :=
  processBindings_WF resourceName allRoles policy.Bindings [] GoMap.WF_nil

theorem processPolicyResponse_grants (resourceName : String) (policy : Policy)
    (allRoles : RoleCatalog) (b : Binding) (hb : b ∈ policy.Bindings) (m : String)
    (hm : m ∈ b.Members) :
    ∃ mem, GoMap.index (processPolicyResponse resourceName policy allRoles) m = some mem
      ∧ ∃ r ∈ mem.Resources, r.Name = resourceName := by
  unfold processPolicyResponse
  rw [processBindings_nil_index]
  have hsome := (firstRole_isSome_iff policy.Bindings m).2 ⟨b, hb, hm⟩
  obtain ⟨role, hrole⟩ := Option.isSome_iff_exists.1 hsome
  rw [hrole]
  exact ⟨_, rfl, by simp [firstGrant]⟩

theorem getProjectBindings_some (B : Backend) (S : Sched) (projects : List Project)
    (allRoles : RoleCatalog) (projectBindings : GoMap Member)
    (h : getProjectBindings B S projects allRoles = some projectBindings) :
    projects.length ≤ chanCap
      ∧ ∃ sent, sendAll (projectTask B allRoles) (S.order projects) = some sent
          ∧ projectBindings = mergeRoleMaps [] sent := by
  unfold getProjectBindings at h
  split at h
  · exact Option.noConfusion h
  · rename_i hlen
    split at h
    · exact Option.noConfusion h
    · rename_i sent hs
      simp only [Option.some.injEq] at h
      exact ⟨Nat.le_of_not_lt hlen, sent, hs, by rw [← h, foldl_mergeRoleMaps]⟩

theorem getFolderBindings_WF (B : Backend) (S : Sched) (folderNames : List String)
    (allRoles : RoleCatalog) (folderBindings : GoMap Member)
    (h : getFolderBindings B S folderNames allRoles = some folderBindings) :
    GoMap.WF folderBindings := by
  unfold getFolderBindings at h
  split at h
  · exact Option.noConfusion h
  · split at h
    · exact Option.noConfusion h
    · split at h
      · exact Option.noConfusion h
      · simp only [Option.some.injEq] at h
        rw [← h, foldl_mergeRoleMaps]
        exact mergeRoleMaps_WF _ _ GoMap.WF_nil

theorem getAllBindings_some (B : Backend) (S : Schedule) (organizationResource : String)
    (projects : List Project) (folderNames : List String) (allRoles : RoleCatalog)
    (allMembers : GoMap Member)
    (h : getAllBindings B S organizationResource projects folderNames allRoles = some allMembers) :
    ∃ orgBindings projectBindings folderBindings,
      getOrgBindings B organizationResource allRoles = some orgBindings
      ∧ getProjectBindings B S.projects projects allRoles = some projectBindings
      ∧ getFolderBindings B S.folders folderNames allRoles = some folderBindings
      ∧ allMembers = mergeRoleMaps [] [orgBindings, projectBindings, folderBindings] := by
  unfold getAllBindings at h
  cases ho : getOrgBindings B organizationResource allRoles with
  | none => simp [ho] at h
  | some orgBindings =>
    cases hp : getProjectBindings B S.projects projects allRoles with
    | none => simp [ho, hp] at h
    | some projectBindings =>
      cases hf : getFolderBindings B S.folders folderNames allRoles with
      | none => simp [ho, hp, hf] at h
      | some folderBindings =>
        simp only [ho, hp, hf, Option.some.injEq] at h
        exact ⟨orgBindings, projectBindings, folderBindings, rfl, rfl, rfl, h.symm⟩

theorem getAllBindings_project (B : Backend) (S : Schedule) (organizationResource : String)
    (projects : List Project) (folderNames : List String) (allRoles : RoleCatalog)
    (allMembers : GoMap Member)
    (h : getAllBindings B S organizationResource projects folderNames allRoles = some allMembers)
    (p : Project) (hp : p ∈ projects) :
    ∃ policy, B.projectsGetIamPolicy p.ProjectId = some policy
      ∧ ∀ b ∈ policy.Bindings, ∀ m ∈ b.Members,
          ∃ mem, GoMap.index allMembers m = some mem
            ∧ ∃ r ∈ mem.Resources, r.Name = "projects/" ++ p.ProjectId := by
  obtain ⟨orgBindings, projectBindings, folderBindings, ho, hpb, hfb, hall⟩ :=
    getAllBindings_some B S organizationResource projects folderNames allRoles allMembers h
  obtain ⟨_, sent, hsent, hproj⟩ := getProjectBindings_some B S.projects projects allRoles _ hpb
  have hp' : p ∈ S.projects.order projects := (S.projects.perm projects).mem_iff.2 hp
  obtain ⟨y, hy, hty⟩ := sendAll_mem _ _ _ hsent p hp'
  unfold projectTask at hty
  cases hpol : B.projectsGetIamPolicy p.ProjectId with
  | none => simp [hpol] at hty
  | some policy =>
    simp only [hpol, Option.map_some', Option.some.injEq] at hty
    refine ⟨policy, rfl, fun b hb m hm => ?_⟩
    obtain ⟨mem0, hmem0, r, hr, hrn⟩ :=
      processPolicyResponse_grants ("projects/" ++ p.ProjectId) policy allRoles b hb m hm
    rw [hty] at hmem0
    have hsentWF : ∀ s ∈ sent, GoMap.WF s := by
      intro s hs
      obtain ⟨x, _, hx⟩ := sendAll_sender _ _ _ hsent s hs
      unfold projectTask at hx
      cases hq : B.projectsGetIamPolicy x.ProjectId with
      | none => simp [hq] at hx
      | some pol =>
        simp only [hq, Option.map_some', Option.some.injEq] at hx
        rw [← hx]
        exact processPolicyResponse_WF _ _ _
    obtain ⟨mem1, hmem1, hsub1⟩ := mergeRoleMaps_contains [] sent hsentWF m y hy mem0 hmem0
    rw [← hproj] at hmem1
    have horgWF : GoMap.WF orgBindings := by
      unfold getOrgBindings at ho
      cases hq : B.organizationsGetIamPolicy organizationResource with
      | none => simp [hq] at ho
      | some pol =>
        simp only [hq, Option.map_some', Option.some.injEq] at ho
        rw [← ho]
        exact processPolicyResponse_WF _ _ _
    have hprojWF : GoMap.WF projectBindings := by
      rw [hproj]
      exact mergeRoleMaps_WF _ _ GoMap.WF_nil
    have hfoldWF := getFolderBindings_WF B S.folders folderNames allRoles folderBindings hfb
    have hsrcWF : ∀ s ∈ [orgBindings, projectBindings, folderBindings], GoMap.WF s := by
      intro s hs
      simp only [List.mem_cons, List.mem_singleton, List.not_mem_nil, or_false] at hs
      rcases hs with rfl | rfl | rfl
      · exact horgWF
      · exact hprojWF
      · exact hfoldWF
    obtain ⟨mem2, hmem2, hsub2⟩ := mergeRoleMaps_contains []
      [orgBindings, projectBindings, folderBindings] hsrcWF m projectBindings
      (by simp) mem1 hmem1
    rw [← hall] at hmem2
    exact ⟨mem2, hmem2, r, hsub2 r (hsub1 r hr), hrn⟩

/-- C2 (evaluation at the failing input): in the scenario of the specification, with the
policy of `P2` granting `roles/editor` to `user:b@x.com`, the parent of `P2` is not a
valid parent, so no role task is started for it, and the final member map nevertheless
holds a resource entry named `projects/P2`: the binding fetch is not restricted to the
projects with a valid parent, as the role discovery is. -/
theorem project_outside_valid_parents_contributes :
    hasValidParent
        (StrSet.Add (StrSet.Add ⟨[]⟩ ["organizations/111"])
          (getFolderNames (scenarioBackend ⟨[⟨"roles/editor", ["user:b@x.com"]⟩]⟩)
            "organizations/111").1)
        ⟨"P2", "two", some ⟨"folder", "999"⟩⟩ = false
    ∧ RunChecker (scenarioBackend ⟨[⟨"roles/editor", ["user:b@x.com"]⟩]⟩) Schedule.fifo
        "organizations/111" []
      = some ([("roles/viewer", ["resourcemanager.projects.get", "resourcemanager.projects.list"])],
          [("user:a@x.com", ⟨[⟨"projects/P1", [⟨"roles/viewer", 2⟩]⟩]⟩),
           ("user:b@x.com", ⟨[⟨"projects/P2", [⟨"roles/editor", 0⟩]⟩]⟩)]) := by
  decide

/-- The reach of the valid-parent gate in the pipeline `getAllRoles` followed by
`getAllBindings`: the grantable roles are queried exactly for the listed projects with
a valid parent, whereas the binding fetch runs over every listed project.  Whenever the
run completes, the policy of each listed project, valid parent or not, was fetched, and
every member of every binding of that policy has, in the final member map, a resource
entry named `projects/<id>`. -/
theorem RunChecker_fetches_bindings_of_every_listed_project (B : Backend) (S : Schedule)
    (organizationResource : String) (projectLabels : GoMap String) (roles : RoleCatalog)
    (members : GoMap Member)
    (h : RunChecker B S organizationResource projectLabels = some (roles, members)) :
    ∃ listed, B.projectsList (buildProjectFilter projectLabels) = some listed
      ∧ (∃ builtInRoles orgRoles sent,
          getBuiltInRoles B = some builtInRoles
          ∧ getRolesForResource B organizationResource = some orgRoles
          ∧ sendAll (getProjectRoles B)
              (S.roles.order (listed.filter (hasValidParent
                (StrSet.Add (StrSet.Add ⟨[]⟩ [organizationResource])
                  (getFolderNames B organizationResource).1)))) = some sent
          ∧ roles = mergeMaps [builtInRoles, orgRoles,
              sent.foldl (fun roles role => mergeMaps [roles, role]) []])
      ∧ (∀ p ∈ listed, ∃ policy, B.projectsGetIamPolicy p.ProjectId = some policy
          ∧ ∀ b ∈ policy.Bindings, ∀ m ∈ b.Members,
              ∃ mem, GoMap.index members m = some mem
                ∧ ∃ r ∈ mem.Resources, r.Name = "projects/" ++ p.ProjectId) := by
  unfold RunChecker at h
  split at h
  · exact Option.noConfusion h
  · split at h
    · exact Option.noConfusion h
    · rename_i allRoles projects folderNames hroles
      obtain ⟨hfn, builtInRoles, orgRoles, projectRoles, hb, ho, hpp, hall⟩ :=
        getAllRoles_some B S.roles organizationResource projectLabels _ _ _ hroles
      obtain ⟨hlist, sent, hsent, hpr⟩ := getAllProjectPolicies_some B S.roles _ _ _ _ hpp
      cases hbind : getAllBindings B S organizationResource projects folderNames allRoles with
      | none => simp [hbind] at h
      | some allMembers =>
        simp only [hbind, Option.map_some', Option.some.injEq, Prod.mk.injEq] at h
        obtain ⟨h1, h2⟩ := h
        subst h1 h2
        refine ⟨projects, hlist, ⟨builtInRoles, orgRoles, sent, hb, ho, ?_, ?_⟩, ?_⟩
        · rw [← hfn]
          exact hsent
        · rw [hall, hpr]
        · intro p hp
          exact getAllBindings_project B S organizationResource projects folderNames _ _ hbind p hp

/-- The general statement at the project `P2` of the scenario, whose parent is not a
valid parent: the member its policy binds gets a resource entry named `projects/P2`. -/
theorem RunChecker_fetches_bindings_outside_valid_parents :
    ∃ mem, GoMap.index
          [("user:a@x.com", (⟨[⟨"projects/P1", [⟨"roles/viewer", 2⟩]⟩]⟩ : Member)),
           ("user:b@x.com", ⟨[⟨"projects/P2", [⟨"roles/editor", 0⟩]⟩]⟩)] "user:b@x.com"
          = some mem
        ∧ ∃ r ∈ mem.Resources, r.Name = "projects/" ++ "P2" := by
  have hrun : RunChecker (scenarioBackend ⟨[⟨"roles/editor", ["user:b@x.com"]⟩]⟩) Schedule.fifo
        "organizations/111" []
      = some ([("roles/viewer", ["resourcemanager.projects.get", "resourcemanager.projects.list"])],
          [("user:a@x.com", ⟨[⟨"projects/P1", [⟨"roles/viewer", 2⟩]⟩]⟩),
           ("user:b@x.com", ⟨[⟨"projects/P2", [⟨"roles/editor", 0⟩]⟩]⟩)]) := by
    decide
  obtain ⟨listed, hl, _, hfetch⟩ :=
    RunChecker_fetches_bindings_of_every_listed_project
      (scenarioBackend ⟨[⟨"roles/editor", ["user:b@x.com"]⟩]⟩) Schedule.fifo
      "organizations/111" [] _ _ hrun
  simp only [scenarioBackend, Option.some.injEq] at hl
  subst hl
  obtain ⟨policy, hpol, hgrant⟩ := hfetch ⟨"P2", "two", some ⟨"folder", "999"⟩⟩ (by simp)
  have hp2 : (scenarioBackend ⟨[⟨"roles/editor", ["user:b@x.com"]⟩]⟩).projectsGetIamPolicy "P2"
      = some ⟨[⟨"roles/editor", ["user:b@x.com"]⟩]⟩ := by decide
  rw [hp2] at hpol
  simp only [Option.some.injEq] at hpol
  subst hpol
  exact hgrant ⟨"roles/editor", ["user:b@x.com"]⟩ (by simp) "user:b@x.com" (by simp)

/-! ## Completion of a run -/

theorem sendAll_isSome {α β : Type} (task : α → Option β) (l : List α)
    (h : ∀ x ∈ l, (task x).isSome = true) : (sendAll task l).isSome = true := by
  induction l with
  | nil => simp [sendAll]
  | cons a rest ih =>
    obtain ⟨b, hb⟩ := Option.isSome_iff_exists.1 (h a (List.mem_cons_self _ _))
    obtain ⟨bs, hbs⟩ := Option.isSome_iff_exists.1
      (ih (fun x hx => h x (List.mem_cons_of_mem _ hx)))
    simp [sendAll, hb, hbs]

theorem projectCallback_loop_isSome (validParents : StrSet) (listed : List Project)
    (acc : List Project × List Project) (h : ∀ p ∈ listed, p.Parent.isSome = true) :
    (listed.foldlM (projectCallback validParents) acc).isSome = true := by
  induction listed generalizing acc with
  | nil => simp
  | cons p rest ih =>
    obtain ⟨parent, hp⟩ := Option.isSome_iff_exists.1 (h p (List.mem_cons_self _ _))
    have hrest : ∀ q ∈ rest, q.Parent.isSome = true := fun q hq => h q (List.mem_cons_of_mem _ hq)
    rw [List.foldlM_cons]
    by_cases hv : validParents.Contains (parent.Type_ ++ "s/" ++ parent.Id) = true
    · simp only [projectCallback, hp, hv, if_true, Option.bind_eq_bind, Option.some_bind]
      exact ih _ hrest
    · simp only [projectCallback, hp, hv, if_false, Option.bind_eq_bind, Option.some_bind,
        Bool.false_eq_true]
      exact ih _ hrest

/-- A run completes when the clients can be built, every remote call it makes succeeds
(grantable roles are only queried for the projects with a valid parent), every listed
project has a parent, and neither the listed projects nor the folders outnumber the
capacity of the result channels. -/
theorem RunChecker_completes (B : Backend) (S : Schedule) (organizationResource : String)
    (projectLabels : GoMap String) (listed : List Project)
    (hclient : B.defaultClient = true)
    (hroles : B.rolesList.isSome = true)
    (horg : (getRolesForResource B organizationResource).isSome = true)
    (hlist : B.projectsList (buildProjectFilter projectLabels) = some listed)
    (hparent : ∀ p ∈ listed, p.Parent.isSome = true)
    (hcap : listed.length ≤ chanCap)
    (hgrant : ∀ p ∈ listed,
      hasValidParent (StrSet.Add (StrSet.Add ⟨[]⟩ [organizationResource])
        (getFolderNames B organizationResource).1) p = true →
      (getProjectRoles B p).isSome = true)
    (horgPolicy : (B.organizationsGetIamPolicy organizationResource).isSome = true)
    (hprojPolicy : ∀ p ∈ listed, (B.projectsGetIamPolicy p.ProjectId).isSome = true)
    (hfcap : (getFolderNames B organizationResource).1.length ≤ chanCap)
    (hfolderPolicy : ∀ f ∈ (getFolderNames B organizationResource).1,
      (B.foldersGetIamPolicy f).isSome = true) :
    (RunChecker B S organizationResource projectLabels).isSome = true := by
  obtain ⟨builtIn, hb⟩ := Option.isSome_iff_exists.1 hroles
  obtain ⟨orgRoles, ho⟩ := Option.isSome_iff_exists.1 horg
  obtain ⟨res, hres⟩ := Option.isSome_iff_exists.1
    (projectCallback_loop_isSome (StrSet.Add (StrSet.Add ⟨[]⟩ [organizationResource])
      (getFolderNames B organizationResource).1) listed ([], []) hparent)
  obtain ⟨ps, started⟩ := res
  obtain ⟨h1, h2⟩ := projectCallback_loop _ listed _ _ hres
  simp only [List.nil_append] at h1 h2
  subst h1 h2
  have hstartedLen : ¬ chanCap < (List.filter (hasValidParent
      (StrSet.Add (StrSet.Add ⟨[]⟩ [organizationResource])
        (getFolderNames B organizationResource).1)) ps).length :=
    Nat.not_lt.2 (le_trans (List.length_filter_le _ _) hcap)
  obtain ⟨sent, hsent⟩ := Option.isSome_iff_exists.1
    (sendAll_isSome (getProjectRoles B) (S.roles.order (List.filter (hasValidParent
      (StrSet.Add (StrSet.Add ⟨[]⟩ [organizationResource])
        (getFolderNames B organizationResource).1)) ps))
      (fun x hx => hgrant x (List.mem_of_mem_filter ((S.roles.perm _).mem_iff.1 hx))
        (List.mem_filter.1 ((S.roles.perm _).mem_iff.1 hx)).2))
  obtain ⟨orgPolicy, hop⟩ := Option.isSome_iff_exists.1 horgPolicy
  have hproj : ∀ allRoles, ∀ x ∈ S.projects.order ps,
      (projectTask B allRoles x).isSome = true := by
    intro allRoles x hx
    obtain ⟨pol, hpol⟩ := Option.isSome_iff_exists.1
      (hprojPolicy x ((S.projects.perm _).mem_iff.1 hx))
    simp [projectTask, hpol]
  have hfold : ∀ allRoles, ∀ x ∈ S.folders.order (getFolderNames B organizationResource).1,
      (folderTask B allRoles x).isSome = true := by
    intro allRoles x hx
    obtain ⟨pol, hpol⟩ := Option.isSome_iff_exists.1
      (hfolderPolicy x ((S.folders.perm _).mem_iff.1 hx))
    simp [folderTask, hpol]
  have hgar : getAllRoles B S.roles organizationResource projectLabels
      = some (mergeMaps [collectRoles builtIn, orgRoles,
          sent.foldl (fun roles role => mergeMaps [roles, role]) []], ps,
          (getFolderNames B organizationResource).1) := by
    simp [getAllRoles, getBuiltInRoles, hb, ho, getAllProjectPolicies, hlist, hres, hstartedLen,
      hsent]
  obtain ⟨sentP, hsentP⟩ := Option.isSome_iff_exists.1
    (sendAll_isSome _ _ (hproj (mergeMaps [collectRoles builtIn, orgRoles,
          sent.foldl (fun roles role => mergeMaps [roles, role]) []])))
  obtain ⟨sentF, hsentF⟩ := Option.isSome_iff_exists.1
    (sendAll_isSome _ _ (hfold (mergeMaps [collectRoles builtIn, orgRoles,
          sent.foldl (fun roles role => mergeMaps [roles, role]) []])))
  simp [RunChecker, hclient, hgar, getAllBindings, getOrgBindings, hop, getProjectBindings,
    Nat.not_lt.2 hcap, hsentP, getFolderBindings, Nat.not_lt.2 hfcap, hsentF]

end GcpRoleChecker
